import Mathlib

/-!
Verification of the equivalence-reasoning core (equivalence classes and
groups over physical expressions) and of the window-frame bound model,
translated from `physical-expr/src/equivalence/class.rs` and
`expr/src/window_frame.rs`.
-/

set_option maxHeartbeats 1000000

/-- Binary operator tag carried by a compound expression node. Mirrors the
`Operator` payload of `BinaryExpr`; note that the congruence check in the
source compares only the dynamic type of a node (`as_any().type_id()`),
never the operator value, so this tag participates in structural equality
but not in the type-identity test. -/
inductive Op
  | plus
  | multiply
  deriving DecidableEq

/-- Shallow embedding of the `PhysicalExpr` trait-object tree: a column
reference carrying a name and an ordinal index, a literal, or a binary
node with two children. Structural equality is derived, mirroring
`PartialEq` on expression trees. -/
inductive Expr
  | column (name : String) (index : Nat)
  | lit (value : Int)
  | binary (op : Op) (lhs : Expr) (rhs : Expr)
  deriving DecidableEq

/-- The ordered children of an expression node (`PhysicalExpr::children`). -/
def Expr.children : Expr → List Expr
  | .column _ _ => []
  | .lit _ => []
  | .binary _ l r => [l, r]

/-- The dynamic type tag of a node (`as_any().type_id()`): it distinguishes
the concrete node struct (Column / Literal / BinaryExpr) but not the
operator stored inside a `BinaryExpr`. -/
def Expr.typeId : Expr → Nat
  | .column _ _ => 0
  | .lit _ => 1
  | .binary _ _ _ => 2

/-- An `EquivalenceClass`: the `IndexSet` of expressions is modelled as the
insertion-ordered duplicate-free list of its elements. -/
structure EquivalenceClass where
  exprs : List Expr
  deriving DecidableEq

/-- `EquivalenceClass::new_empty`. -/
def EquivalenceClass.new_empty : EquivalenceClass := ⟨[]⟩

/-- `EquivalenceClass::contains`. -/
def EquivalenceClass.containsE (c : EquivalenceClass) (e : Expr) : Prop :=
  e ∈ c.exprs

instance (c : EquivalenceClass) (e : Expr) : Decidable (c.containsE e) :=
  inferInstanceAs (Decidable (e ∈ c.exprs))

/-- `EquivalenceClass::push`: `IndexSet::insert` appends the expression if
it is not already present, otherwise leaves the set unchanged. -/
def EquivalenceClass.push (c : EquivalenceClass) (e : Expr) : EquivalenceClass :=
  if e ∈ c.exprs then c else ⟨c.exprs ++ [e]⟩

/-- `EquivalenceClass::extend`: pushes every expression of `other`, in
order, so entries are deduplicated. -/
def EquivalenceClass.extendC (c : EquivalenceClass) (other : EquivalenceClass) : EquivalenceClass :=
  other.exprs.foldl EquivalenceClass.push c

/-- `EquivalenceClass::new`: collecting a vector into an `IndexSet` keeps
the first occurrence of each element, in order. -/
def EquivalenceClass.new (l : List Expr) : EquivalenceClass :=
  l.foldl EquivalenceClass.push new_empty

/-- `EquivalenceClass::canonical_expr`: the first element, if any. -/
def EquivalenceClass.canonical_expr (c : EquivalenceClass) : Option Expr :=
  c.exprs.head?

/-- `EquivalenceClass::contains_any`: true when the two classes share an
entry. -/
def EquivalenceClass.contains_any (c other : EquivalenceClass) : Prop :=
  ∃ e ∈ c.exprs, e ∈ other.exprs

instance (c d : EquivalenceClass) : Decidable (c.contains_any d) :=
  inferInstanceAs (Decidable (∃ e ∈ c.exprs, e ∈ d.exprs))

/-- `EquivalenceClass::len`. -/
def EquivalenceClass.lenC (c : EquivalenceClass) : Nat :=
  c.exprs.length

theorem EquivalenceClass.mem_push (c : EquivalenceClass) (x e : Expr) :
    e ∈ (c.push x).exprs ↔ e ∈ c.exprs ∨ e = x := by
  unfold EquivalenceClass.push
  split
  · constructor
    · exact fun h => Or.inl h
    · rintro (h | rfl)
      · exact h
      · assumption
  · simp [List.mem_append]

theorem EquivalenceClass.exprs_push_append (c : EquivalenceClass) (x : Expr) :
    ∃ t, (c.push x).exprs = c.exprs ++ t := by
  unfold EquivalenceClass.push
  split
  · exact ⟨[], by simp⟩
  · exact ⟨[x], rfl⟩

theorem EquivalenceClass.exprs_extendC_append (c d : EquivalenceClass) :
    ∃ t, (c.extendC d).exprs = c.exprs ++ t := by
  unfold EquivalenceClass.extendC
  induction d.exprs generalizing c with
  | nil => exact ⟨[], by simp⟩
  | cons x xs ih =>
    obtain ⟨t1, h1⟩ := c.exprs_push_append x
    obtain ⟨t2, h2⟩ := ih (c.push x)
    exact ⟨t1 ++ t2, by simp [h2, h1]⟩

theorem EquivalenceClass.mem_extendC (c d : EquivalenceClass) (e : Expr) :
    e ∈ (c.extendC d).exprs ↔ e ∈ c.exprs ∨ e ∈ d.exprs := by
  unfold EquivalenceClass.extendC
  induction d.exprs generalizing c with
  | nil => simp
  | cons x xs ih =>
    simp only [List.foldl_cons, ih, mem_push, List.mem_cons]
    tauto

theorem EquivalenceClass.mem_new (l : List Expr) (e : Expr) :
    e ∈ (EquivalenceClass.new l).exprs ↔ e ∈ l := by
  unfold EquivalenceClass.new
  have key : ∀ (c : EquivalenceClass), e ∈ (l.foldl EquivalenceClass.push c).exprs ↔
      e ∈ c.exprs ∨ e ∈ l := by
    induction l with
    | nil => simp
    | cons x xs ih =>
      intro c
      simp only [List.foldl_cons, ih, mem_push, List.mem_cons]
      tauto
  simp [key, new_empty]

theorem EquivalenceClass.lenC_extendC_ge (c d : EquivalenceClass) :
    c.lenC ≤ (c.extendC d).lenC := by
  obtain ⟨t, ht⟩ := c.exprs_extendC_append d
  simp [EquivalenceClass.lenC, ht]

/-- Model of `Vec::swap_remove(i)`: moves the last element into position
`i` and pops the last slot. On an empty list it is the identity (the Rust
call would panic; it is never reached on an empty list). -/
def swapRemove {α : Type} (l : List α) (i : Nat) : List α :=
  match l.getLast? with
  | none => l
  | some x => (l.set i x).dropLast

theorem swapRemove_length {α : Type} (l : List α) (i : Nat) :
    (swapRemove l i).length = l.length - 1 := by
  unfold swapRemove
  match h : l.getLast? with
  | none =>
    have : l = [] := List.getLast?_eq_none_iff.mp h
    simp [this]
  | some x => simp

section ListLemmas

variable {α : Type}

theorem getD_set_self (l : List α) (i : Nat) (x d : α) (h : i < l.length) :
    (l.set i x).getD i d = x := by
  rw [List.getD_eq_getElem _ _ (by simpa using h)]
  exact List.getElem_set_self _

theorem getD_set_ne (l : List α) (i j : Nat) (x d : α) (h : i ≠ j) :
    (l.set i x).getD j d = l.getD j d := by
  by_cases hj : j < l.length
  · rw [List.getD_eq_getElem _ _ (by simpa using hj), List.getD_eq_getElem _ _ hj]
    exact List.getElem_set_ne h _
  · rw [List.getD_eq_default _ _ (by simpa using Nat.le_of_not_lt hj),
      List.getD_eq_default _ _ (Nat.le_of_not_lt hj)]

theorem getD_dropLast (l : List α) (j : Nat) (d : α) (h : j < l.length - 1) :
    l.dropLast.getD j d = l.getD j d := by
  have hlen : j < l.dropLast.length := by simp; omega
  rw [List.getD_eq_getElem _ _ hlen, List.getD_eq_getElem _ _ (by omega)]
  exact List.getElem_dropLast ..

theorem getD_last_of_getLast? (l : List α) (x d : α) (h : l.getLast? = some x) :
    l.getD (l.length - 1) d = x := by
  have hne : l ≠ [] := by
    intro he
    rw [he] at h
    simp at h
  have hlen : 0 < l.length := List.length_pos.mpr hne
  rw [List.getD_eq_getElem _ _ (by omega)]
  rw [List.getLast?_eq_getElem? l, List.getElem?_eq_getElem (by omega)] at h
  exact (Option.some_injective _ h)

theorem getD_swapRemove_ne (l : List α) (i j : Nat) (d : α) (hne : j ≠ i)
    (hj : j < l.length - 1) : (swapRemove l i).getD j d = l.getD j d := by
  unfold swapRemove
  match h : l.getLast? with
  | none => rfl
  | some x =>
    rw [getD_dropLast _ _ _ (by simpa using hj), getD_set_ne _ _ _ _ _ (Ne.symm hne)]

theorem getD_swapRemove_cases (l : List α) (i j : Nat) (d : α)
    (hj : j < l.length - 1) :
    (swapRemove l i).getD j d = l.getD j d ∨
      (swapRemove l i).getD j d = l.getD (l.length - 1) d := by
  by_cases hne : j = i
  · subst hne
    unfold swapRemove
    match h : l.getLast? with
    | none => exact Or.inl rfl
    | some x =>
      right
      rw [getD_dropLast _ _ _ (by simpa using hj), getD_set_self _ _ _ _ (by omega),
        getD_last_of_getLast? _ _ _ h]
  · exact Or.inl (getD_swapRemove_ne l i j d hne hj)

theorem getD_mem (l : List α) (i : Nat) (d : α) (h : i < l.length) :
    l.getD i d ∈ l := by
  rw [List.getD_eq_getElem _ _ h]
  exact List.getElem_mem h

theorem mem_swapRemove {l : List α} {i : Nat} {c : α} (h : c ∈ swapRemove l i) :
    c ∈ l := by
  unfold swapRemove at h
  split at h
  · exact h
  · next x hg =>
    rw [List.dropLast_eq_take] at h
    have h2 : c ∈ l.set i x := List.take_subset _ _ h
    rcases List.mem_or_eq_of_mem_set h2 with h3 | hcx
    · exact h3
    · rw [hcx, ← getD_last_of_getLast? l x x hg]
      exact getD_mem _ _ _ (by
        have : l ≠ [] := by
          intro he
          rw [he] at hg
          simp at hg
        have := List.length_pos.mpr this
        omega)

theorem set_mem_self (l : List α) (i : Nat) (x : α) (h : i < l.length) :
    x ∈ l.set i x := by
  rw [List.mem_iff_getElem]
  exact ⟨i, by simpa using h, List.getElem_set_self _⟩

theorem mem_set_or (l : List α) (i : Nat) (x d : α) {c : α} (h : c ∈ l) :
    c ∈ l.set i x ∨ c = l.getD i d := by
  rw [List.mem_iff_getElem] at h
  obtain ⟨p, hp, rfl⟩ := h
  by_cases hpi : p = i
  · subst hpi
    exact Or.inr (List.getD_eq_getElem _ _ hp).symm
  · left
    rw [List.mem_iff_getElem]
    exact ⟨p, by simpa using hp, List.getElem_set_ne (Ne.symm hpi) _⟩

theorem mem_swapRemove_or (l : List α) (i : Nat) (d : α) {c : α}
    (hi : i < l.length) (h : c ∈ l) :
    c = l.getD i d ∨ c ∈ swapRemove l i := by
  rw [List.mem_iff_getElem] at h
  obtain ⟨p, hp, rfl⟩ := h
  by_cases hpi : p = i
  · subst hpi
    exact Or.inl (List.getD_eq_getElem _ _ hp).symm
  · right
    have hne : l ≠ [] := List.length_pos.mp (by omega)
    obtain ⟨x, hx⟩ : ∃ y, l.getLast? = some y := by
      cases hgl : l.getLast? with
      | none => exact absurd (List.getLast?_eq_none_iff.mp hgl) hne
      | some y => exact ⟨y, rfl⟩
    unfold swapRemove
    rw [hx]
    by_cases hlast : p = l.length - 1
    · subst hlast
      have hxeq : l[l.length - 1] = x := by
        have h2 := getD_last_of_getLast? l x x hx
        rwa [List.getD_eq_getElem _ _ (by omega)] at h2
      rw [hxeq]
      have hilt : i < l.length - 1 := by omega
      rw [List.mem_iff_getElem]
      refine ⟨i, by simp; omega, ?_⟩
      rw [List.getElem_dropLast]
      exact List.getElem_set_self _
    · rw [List.mem_iff_getElem]
      refine ⟨p, by simp; omega, ?_⟩
      rw [List.getElem_dropLast]
      exact List.getElem_set_ne (Ne.symm hpi) _

end ListLemmas

/-- An `EquivalenceGroup`: an ordered list of equivalence classes. -/
structure EquivalenceGroup where
  classes : List EquivalenceClass
  deriving DecidableEq

/-- `EquivalenceGroup::empty`. -/
def EquivalenceGroup.emptyG : EquivalenceGroup := ⟨[]⟩

/-- The scan of `add_equal_conditions` over all classes: records the index
of a class containing `e`, a later match overwriting an earlier one
(mirrors `first_class = Some(idx)` assignments inside the single `for`
loop). -/
def findClassIdxAux (classes : List EquivalenceClass) (e : Expr) (i : Nat)
    (acc : Option Nat) : Option Nat :=
  match classes with
  | [] => acc
  | c :: rest => findClassIdxAux rest e (i + 1) (if e ∈ c.exprs then some i else acc)

def findClassIdx (classes : List EquivalenceClass) (e : Expr) : Option Nat :=
  findClassIdxAux classes e 0 none

/-- `EquivalenceGroup::add_equal_conditions`. -/
def EquivalenceGroup.add_equal_conditions (g : EquivalenceGroup)
    (left right : Expr) : EquivalenceGroup :=
  match findClassIdx g.classes left, findClassIdx g.classes right with
  | some first_idx, some second_idx =>
    if first_idx = second_idx then g
    else
      let fi := min first_idx second_idx
      let si := max first_idx second_idx
      let other_class := g.classes.getD si EquivalenceClass.new_empty
      let removed := swapRemove g.classes si
      ⟨removed.set fi ((removed.getD fi EquivalenceClass.new_empty).extendC other_class)⟩
  | some group_idx, none =>
    ⟨g.classes.set group_idx
      ((g.classes.getD group_idx EquivalenceClass.new_empty).push right)⟩
  | none, some group_idx =>
    ⟨g.classes.set group_idx
      ((g.classes.getD group_idx EquivalenceClass.new_empty).push left)⟩
  | none, none =>
    ⟨g.classes ++ [EquivalenceClass.new [left, right]]⟩

/-- Inner `while next_idx < classes.len()` loop of
`EquivalenceGroup::bridge_classes`: whenever the class at `idx` shares a
member with the class at `next`, the latter is swap-removed and merged
into the former without advancing `next`; otherwise `next` advances. -/
def bridgeInner (classes : List EquivalenceClass) (idx next : Nat) :
    List EquivalenceClass :=
  if h : next < classes.length then
    if (classes.getD idx EquivalenceClass.new_empty).contains_any
        (classes.getD next EquivalenceClass.new_empty) then
      bridgeInner
        ((swapRemove classes next).set idx
          (((swapRemove classes next).getD idx EquivalenceClass.new_empty).extendC
            (classes.getD next EquivalenceClass.new_empty)))
        idx next
    else
      bridgeInner classes idx (next + 1)
  else classes
termination_by classes.length - next
decreasing_by
  · have hlen : (swapRemove classes next).length = classes.length - 1 :=
      swapRemove_length classes next
    simp only [List.length_set, hlen]
    omega
  · omega

/-- If the inner bridging loop did not return its input unchanged, it
strictly shrank the class list. -/
theorem bridgeInner_eq_or_length_lt (classes : List EquivalenceClass)
    (idx next : Nat) :
    bridgeInner classes idx next = classes ∨
      (bridgeInner classes idx next).length < classes.length := by
  unfold bridgeInner
  split
  · split
    · have hmlen : ((swapRemove classes next).set idx
          (((swapRemove classes next).getD idx EquivalenceClass.new_empty).extendC
            (classes.getD next EquivalenceClass.new_empty))).length =
          classes.length - 1 := by
        simp only [List.length_set, swapRemove_length]
      rcases bridgeInner_eq_or_length_lt ((swapRemove classes next).set idx
          (((swapRemove classes next).getD idx EquivalenceClass.new_empty).extendC
            (classes.getD next EquivalenceClass.new_empty))) idx next with heq | hlt
      · right
        rw [heq, hmlen]
        omega
      · right
        omega
    · exact bridgeInner_eq_or_length_lt classes idx (next + 1)
  · left
    rfl
termination_by classes.length - next
decreasing_by
  · omega
  · simp only [List.length_set, swapRemove_length]
    omega

/-- Outer `while idx < classes.len()` loop of `bridge_classes`: re-runs the
inner loop at the same `idx` as long as the class at `idx` kept growing
(`continue`), otherwise advances `idx`. -/
def bridgeOuter (classes : List EquivalenceClass) (idx : Nat) :
    List EquivalenceClass :=
  if h : idx < classes.length then
    if hgrow : (classes.getD idx EquivalenceClass.new_empty).lenC <
        ((bridgeInner classes idx (idx + 1)).getD idx EquivalenceClass.new_empty).lenC then
      bridgeOuter (bridgeInner classes idx (idx + 1)) idx
    else
      bridgeOuter (bridgeInner classes idx (idx + 1)) (idx + 1)
  else classes
termination_by 2 * classes.length - idx
decreasing_by
  · rcases bridgeInner_eq_or_length_lt classes idx (idx + 1) with heq | hlt
    · rw [heq] at hgrow
      exact absurd hgrow (lt_irrefl _)
    · omega
  · rcases bridgeInner_eq_or_length_lt classes idx (idx + 1) with heq | hlt
    · rw [heq]
      omega
    · omega

/-- `EquivalenceGroup::bridge_classes`. -/
def EquivalenceGroup.bridge_classes (g : EquivalenceGroup) : EquivalenceGroup :=
  ⟨bridgeOuter g.classes 0⟩

/-- `EquivalenceGroup::remove_redundant_entries`: drop classes of size at
most one, then bridge. -/
def EquivalenceGroup.remove_redundant_entries (g : EquivalenceGroup) : EquivalenceGroup :=
  EquivalenceGroup.bridge_classes ⟨g.classes.filter (fun c => 1 < c.lenC)⟩

/-- `EquivalenceGroup::new`. -/
def EquivalenceGroup.new (classes : List EquivalenceClass) : EquivalenceGroup :=
  EquivalenceGroup.remove_redundant_entries ⟨classes⟩

/-- `EquivalenceGroup::extend`. -/
def EquivalenceGroup.extendG (g other : EquivalenceGroup) : EquivalenceGroup :=
  EquivalenceGroup.remove_redundant_entries ⟨g.classes ++ other.classes⟩

theorem getD_swapRemove_self {α : Type} (l : List α) (i : Nat) (d : α)
    (hi : i < l.length - 1) :
    (swapRemove l i).getD i d = l.getD (l.length - 1) d := by
  have hne : l ≠ [] := List.length_pos.mp (by omega)
  obtain ⟨x, hx⟩ : ∃ y, l.getLast? = some y := by
    cases hgl : l.getLast? with
    | none => exact absurd (List.getLast?_eq_none_iff.mp hgl) hne
    | some y => exact ⟨y, rfl⟩
  unfold swapRemove
  rw [hx, getD_dropLast _ _ _ (by simpa using hi), getD_set_self _ _ _ _ (by omega),
    getD_last_of_getLast? _ _ _ hx]

theorem EquivalenceClass.eq_of_exprs {c d : EquivalenceClass}
    (h : c.exprs = d.exprs) : c = d := by
  cases c
  cases d
  simpa using h

/-- Two classes are disjoint when they share no expression. -/
def clsDisj (c₁ c₂ : EquivalenceClass) : Prop :=
  ∀ e ∈ c₁.exprs, e ∉ c₂.exprs

instance (c₁ c₂ : EquivalenceClass) : Decidable (clsDisj c₁ c₂) :=
  inferInstanceAs (Decidable (∀ e ∈ c₁.exprs, e ∉ c₂.exprs))

theorem clsDisj_of_not_contains_any {c₁ c₂ : EquivalenceClass}
    (h : ¬ c₁.contains_any c₂) : clsDisj c₁ c₂ := by
  intro e he hmem
  exact h ⟨e, he, hmem⟩

/-- Some expression in a class at position `j ≥ k` holds `e`. -/
def tailUnion (cs : List EquivalenceClass) (k : Nat) (e : Expr) : Prop :=
  ∃ j, k ≤ j ∧ j < cs.length ∧ e ∈ (cs.getD j EquivalenceClass.new_empty).exprs

theorem bridgeInner_merge (classes : List EquivalenceClass) (idx next : Nat)
    (h : next < classes.length)
    (hc : (classes.getD idx EquivalenceClass.new_empty).contains_any
      (classes.getD next EquivalenceClass.new_empty)) :
    bridgeInner classes idx next =
      bridgeInner ((swapRemove classes next).set idx
        (((swapRemove classes next).getD idx EquivalenceClass.new_empty).extendC
          (classes.getD next EquivalenceClass.new_empty))) idx next := by
  conv_lhs => rw [bridgeInner]
  simp only [dif_pos h, if_pos hc]

theorem bridgeInner_skip (classes : List EquivalenceClass) (idx next : Nat)
    (h : next < classes.length)
    (hc : ¬ (classes.getD idx EquivalenceClass.new_empty).contains_any
      (classes.getD next EquivalenceClass.new_empty)) :
    bridgeInner classes idx next = bridgeInner classes idx (next + 1) := by
  conv_lhs => rw [bridgeInner]
  simp only [dif_pos h, if_neg hc]

theorem bridgeInner_exit (classes : List EquivalenceClass) (idx next : Nat)
    (h : ¬ next < classes.length) :
    bridgeInner classes idx next = classes := by
  rw [bridgeInner]
  simp only [dif_neg h]

theorem bridgeOuter_grow (classes : List EquivalenceClass) (idx : Nat)
    (h : idx < classes.length)
    (hgrow : (classes.getD idx EquivalenceClass.new_empty).lenC <
      ((bridgeInner classes idx (idx + 1)).getD idx EquivalenceClass.new_empty).lenC) :
    bridgeOuter classes idx = bridgeOuter (bridgeInner classes idx (idx + 1)) idx := by
  conv_lhs => rw [bridgeOuter]
  simp only [dif_pos h, dif_pos hgrow]

theorem bridgeOuter_advance (classes : List EquivalenceClass) (idx : Nat)
    (h : idx < classes.length)
    (hgrow : ¬ (classes.getD idx EquivalenceClass.new_empty).lenC <
      ((bridgeInner classes idx (idx + 1)).getD idx EquivalenceClass.new_empty).lenC) :
    bridgeOuter classes idx = bridgeOuter (bridgeInner classes idx (idx + 1)) (idx + 1) := by
  conv_lhs => rw [bridgeOuter]
  simp only [dif_pos h, dif_neg hgrow]

theorem bridgeOuter_exit (classes : List EquivalenceClass) (idx : Nat)
    (h : ¬ idx < classes.length) :
    bridgeOuter classes idx = classes := by
  rw [bridgeOuter]
  simp only [dif_neg h]

theorem bridgeInner_length_le (classes : List EquivalenceClass) (idx next : Nat) :
    (bridgeInner classes idx next).length ≤ classes.length := by
  rcases bridgeInner_eq_or_length_lt classes idx next with heq | hlt
  · rw [heq]
  · omega

theorem bridgeInner_getD_stable (classes : List EquivalenceClass)
    (idx next k : Nat) (hk : k < next) (hki : k ≠ idx) :
    (bridgeInner classes idx next).getD k EquivalenceClass.new_empty =
      classes.getD k EquivalenceClass.new_empty := by
  by_cases h : next < classes.length
  · by_cases hc : (classes.getD idx EquivalenceClass.new_empty).contains_any
        (classes.getD next EquivalenceClass.new_empty)
    · rw [bridgeInner_merge classes idx next h hc]
      rw [bridgeInner_getD_stable _ idx next k hk hki]
      rw [getD_set_ne _ _ _ _ _ (Ne.symm hki)]
      exact getD_swapRemove_ne _ _ _ _ (by omega) (by omega)
    · rw [bridgeInner_skip classes idx next h hc]
      exact bridgeInner_getD_stable classes idx (next + 1) k (by omega) hki
  · rw [bridgeInner_exit classes idx next h]
termination_by classes.length - next
decreasing_by
  · simp only [List.length_set, swapRemove_length]
    omega
  · omega

theorem bridgeInner_idx_extend (classes : List EquivalenceClass)
    (idx next : Nat) (hidx : idx < next) :
    ∃ t, ((bridgeInner classes idx next).getD idx EquivalenceClass.new_empty).exprs =
      (classes.getD idx EquivalenceClass.new_empty).exprs ++ t := by
  by_cases h : next < classes.length
  · by_cases hc : (classes.getD idx EquivalenceClass.new_empty).contains_any
        (classes.getD next EquivalenceClass.new_empty)
    · rw [bridgeInner_merge classes idx next h hc]
      obtain ⟨t1, ht1⟩ := bridgeInner_idx_extend ((swapRemove classes next).set idx
        (((swapRemove classes next).getD idx EquivalenceClass.new_empty).extendC
          (classes.getD next EquivalenceClass.new_empty))) idx next hidx
      rw [getD_set_self _ _ _ _ (by rw [swapRemove_length]; omega)] at ht1
      obtain ⟨t0, ht0⟩ := (classes.getD idx
        EquivalenceClass.new_empty).exprs_extendC_append
        (classes.getD next EquivalenceClass.new_empty)
      refine ⟨t0 ++ t1, ?_⟩
      rw [ht1, getD_swapRemove_ne _ _ _ _ (by omega) (by omega), ht0,
        List.append_assoc]
    · rw [bridgeInner_skip classes idx next h hc]
      exact bridgeInner_idx_extend classes idx (next + 1) (by omega)
  · rw [bridgeInner_exit classes idx next h]
    exact ⟨[], by simp⟩
termination_by classes.length - next
decreasing_by
  · simp only [List.length_set, swapRemove_length]
    omega
  · omega

theorem bridgeInner_tailUnion_sub (classes : List EquivalenceClass)
    (idx next k : Nat) (hk : k ≤ idx) (hidx : idx < next) (e : Expr)
    (hmem : tailUnion (bridgeInner classes idx next) k e) :
    tailUnion classes k e := by
  by_cases h : next < classes.length
  · by_cases hc : (classes.getD idx EquivalenceClass.new_empty).contains_any
        (classes.getD next EquivalenceClass.new_empty)
    · rw [bridgeInner_merge classes idx next h hc] at hmem
      have hM := bridgeInner_tailUnion_sub ((swapRemove classes next).set idx
        (((swapRemove classes next).getD idx EquivalenceClass.new_empty).extendC
          (classes.getD next EquivalenceClass.new_empty))) idx next k hk hidx e hmem
      obtain ⟨j, hkj, hjlen, hje⟩ := hM
      rw [List.length_set, swapRemove_length] at hjlen
      by_cases hji : j = idx
      · subst hji
        rw [getD_set_self _ _ _ _ (by rw [swapRemove_length]; omega),
          EquivalenceClass.mem_extendC,
          getD_swapRemove_ne _ _ _ _ (by omega) (by omega)] at hje
        rcases hje with hje | hje
        · exact ⟨j, hkj, by omega, hje⟩
        · exact ⟨next, by omega, by omega, hje⟩
      · rw [getD_set_ne _ _ _ _ _ (fun hh => hji hh.symm)] at hje
        rcases getD_swapRemove_cases classes next j
            EquivalenceClass.new_empty (by omega) with hcase | hcase
        · rw [hcase] at hje
          exact ⟨j, hkj, by omega, hje⟩
        · rw [hcase] at hje
          exact ⟨classes.length - 1, by omega, by omega, hje⟩
    · rw [bridgeInner_skip classes idx next h hc] at hmem
      exact bridgeInner_tailUnion_sub classes idx (next + 1) k hk (by omega) e hmem
  · rwa [bridgeInner_exit classes idx next h] at hmem
termination_by classes.length - next
decreasing_by
  · simp only [List.length_set, swapRemove_length]
    omega
  · omega

theorem bridgeInner_tailUnion_sup (classes : List EquivalenceClass)
    (idx next k : Nat) (hk : k ≤ idx) (hidx : idx < next) (e : Expr)
    (hmem : tailUnion classes k e) :
    tailUnion (bridgeInner classes idx next) k e := by
  by_cases h : next < classes.length
  · by_cases hc : (classes.getD idx EquivalenceClass.new_empty).contains_any
        (classes.getD next EquivalenceClass.new_empty)
    · rw [bridgeInner_merge classes idx next h hc]
      refine bridgeInner_tailUnion_sup _ idx next k hk hidx e ?_
      obtain ⟨j, hkj, hjlen, hje⟩ := hmem
      have hsetlen : ((swapRemove classes next).set idx
          (((swapRemove classes next).getD idx EquivalenceClass.new_empty).extendC
            (classes.getD next EquivalenceClass.new_empty))).length =
          classes.length - 1 := by
        rw [List.length_set, swapRemove_length]
      by_cases hji : j = idx
      · subst hji
        refine ⟨j, hkj, by omega, ?_⟩
        rw [getD_set_self _ _ _ _ (by rw [swapRemove_length]; omega),
          EquivalenceClass.mem_extendC,
          getD_swapRemove_ne _ _ _ _ (by omega) (by omega)]
        exact Or.inl hje
      · by_cases hjn : j = next
        · subst hjn
          refine ⟨idx, hk, by omega, ?_⟩
          rw [getD_set_self _ _ _ _ (by rw [swapRemove_length]; omega),
            EquivalenceClass.mem_extendC]
          exact Or.inr hje
        · by_cases hjl : j = classes.length - 1
          · subst hjl
            have hnlt : next < classes.length - 1 := by omega
            refine ⟨next, by omega, by omega, ?_⟩
            rw [getD_set_ne _ _ _ _ _ (by omega),
              getD_swapRemove_self _ _ _ hnlt]
            exact hje
          · refine ⟨j, hkj, by omega, ?_⟩
            rw [getD_set_ne _ _ _ _ _ (fun hh => hji hh.symm),
              getD_swapRemove_ne _ _ _ _ hjn (by omega)]
            exact hje
    · rw [bridgeInner_skip classes idx next h hc]
      exact bridgeInner_tailUnion_sup classes idx (next + 1) k hk (by omega) e hmem
  · rwa [bridgeInner_exit classes idx next h]
termination_by classes.length - next
decreasing_by
  · simp only [List.length_set, swapRemove_length]
    omega
  · omega

theorem bridgeInner_min_lenC (classes : List EquivalenceClass)
    (idx next : Nat) (hidx : idx < next) (m : Nat)
    (hall : ∀ c ∈ classes, m ≤ c.lenC) :
    ∀ c ∈ bridgeInner classes idx next, m ≤ c.lenC := by
  by_cases h : next < classes.length
  · by_cases hc : (classes.getD idx EquivalenceClass.new_empty).contains_any
        (classes.getD next EquivalenceClass.new_empty)
    · rw [bridgeInner_merge classes idx next h hc]
      refine bridgeInner_min_lenC _ idx next hidx m ?_
      intro c hcmem
      rcases List.mem_or_eq_of_mem_set hcmem with hmem | rfl
      · exact hall c (mem_swapRemove hmem)
      · calc m ≤ ((swapRemove classes next).getD idx EquivalenceClass.new_empty).lenC := by
              rw [getD_swapRemove_ne _ _ _ _ (by omega) (by omega)]
              exact hall _ (getD_mem _ _ _ (by omega))
          _ ≤ _ := EquivalenceClass.lenC_extendC_ge _ _
    · rw [bridgeInner_skip classes idx next h hc]
      exact bridgeInner_min_lenC classes idx (next + 1) (by omega) m hall
  · rw [bridgeInner_exit classes idx next h]
    exact hall
termination_by classes.length - next
decreasing_by
  · simp only [List.length_set, swapRemove_length]
    omega
  · omega

theorem bridgeInner_disjoint (classes : List EquivalenceClass)
    (idx next : Nat) (hidx : idx < next)
    (hsame : (bridgeInner classes idx next).getD idx EquivalenceClass.new_empty =
      classes.getD idx EquivalenceClass.new_empty)
    (hpre : ∀ j, idx < j → j < next → j < classes.length →
      clsDisj (classes.getD idx EquivalenceClass.new_empty)
        (classes.getD j EquivalenceClass.new_empty)) :
    ∀ j, idx < j → j < (bridgeInner classes idx next).length →
      clsDisj ((bridgeInner classes idx next).getD idx EquivalenceClass.new_empty)
        ((bridgeInner classes idx next).getD j EquivalenceClass.new_empty) := by
  by_cases h : next < classes.length
  · by_cases hc : (classes.getD idx EquivalenceClass.new_empty).contains_any
        (classes.getD next EquivalenceClass.new_empty)
    · rw [bridgeInner_merge classes idx next h hc] at hsame ⊢
      have hMidx : ((swapRemove classes next).set idx
          (((swapRemove classes next).getD idx EquivalenceClass.new_empty).extendC
            (classes.getD next EquivalenceClass.new_empty))).getD idx
            EquivalenceClass.new_empty =
          (classes.getD idx EquivalenceClass.new_empty).extendC
            (classes.getD next EquivalenceClass.new_empty) := by
        rw [getD_set_self _ _ _ _ (by rw [swapRemove_length]; omega),
          getD_swapRemove_ne _ _ _ _ (by omega) (by omega)]
      obtain ⟨t1, ht1⟩ := bridgeInner_idx_extend ((swapRemove classes next).set idx
        (((swapRemove classes next).getD idx EquivalenceClass.new_empty).extendC
          (classes.getD next EquivalenceClass.new_empty))) idx next hidx
      obtain ⟨t0, ht0⟩ := (classes.getD idx
        EquivalenceClass.new_empty).exprs_extendC_append
        (classes.getD next EquivalenceClass.new_empty)
      rw [hMidx, ht0] at ht1
      have hlen := congrArg (fun (l : List Expr) => l.length) (hsame ▸ ht1)
      simp only [List.length_append] at hlen
      have ht0nil : t0 = [] := List.length_eq_zero.mp (by omega)
      have hMeq : ((swapRemove classes next).set idx
          (((swapRemove classes next).getD idx EquivalenceClass.new_empty).extendC
            (classes.getD next EquivalenceClass.new_empty))).getD idx
            EquivalenceClass.new_empty =
          classes.getD idx EquivalenceClass.new_empty := by
        rw [hMidx]
        refine EquivalenceClass.eq_of_exprs ?_
        rw [ht0, ht0nil, List.append_nil]
      refine bridgeInner_disjoint _ idx next hidx (by rw [hMeq]; exact hsame) ?_
      intro j hij hjn hjlen
      rw [hMeq, getD_set_ne _ _ _ _ _ (by omega),
        getD_swapRemove_ne _ _ _ _ (by omega) (by omega)]
      refine hpre j hij hjn ?_
      rw [List.length_set, swapRemove_length] at hjlen
      omega
    · rw [bridgeInner_skip classes idx next h hc] at hsame ⊢
      refine bridgeInner_disjoint classes idx (next + 1) (by omega) hsame ?_
      intro j hij hjn hjlen
      by_cases hjnext : j = next
      · subst hjnext
        exact clsDisj_of_not_contains_any hc
      · exact hpre j hij (by omega) hjlen
  · rw [bridgeInner_exit classes idx next h] at hsame ⊢
    intro j hij hjlen
    exact hpre j hij (by omega) hjlen
termination_by classes.length - next
decreasing_by
  · simp only [List.length_set, swapRemove_length]
    omega
  · omega

theorem bridgeOuter_tailUnion0 (classes : List EquivalenceClass) (idx : Nat)
    (e : Expr) :
    tailUnion (bridgeOuter classes idx) 0 e ↔ tailUnion classes 0 e := by
  by_cases h : idx < classes.length
  · by_cases hgrow : (classes.getD idx EquivalenceClass.new_empty).lenC <
        ((bridgeInner classes idx (idx + 1)).getD idx EquivalenceClass.new_empty).lenC
    · rw [bridgeOuter_grow classes idx h hgrow]
      rw [bridgeOuter_tailUnion0 (bridgeInner classes idx (idx + 1)) idx e]
      constructor
      · exact bridgeInner_tailUnion_sub classes idx (idx + 1) 0 (by omega) (by omega) e
      · exact bridgeInner_tailUnion_sup classes idx (idx + 1) 0 (by omega) (by omega) e
    · rw [bridgeOuter_advance classes idx h hgrow]
      rw [bridgeOuter_tailUnion0 (bridgeInner classes idx (idx + 1)) (idx + 1) e]
      constructor
      · exact bridgeInner_tailUnion_sub classes idx (idx + 1) 0 (by omega) (by omega) e
      · exact bridgeInner_tailUnion_sup classes idx (idx + 1) 0 (by omega) (by omega) e
  · rw [bridgeOuter_exit classes idx h]
termination_by 2 * classes.length - idx
decreasing_by
  · rcases bridgeInner_eq_or_length_lt classes idx (idx + 1) with heq | hlt
    · rw [heq] at hgrow
      exact absurd hgrow (lt_irrefl _)
    · omega
  · rcases bridgeInner_eq_or_length_lt classes idx (idx + 1) with heq | hlt
    · rw [heq]
      omega
    · omega

theorem bridgeOuter_min_lenC (classes : List EquivalenceClass) (idx m : Nat)
    (hall : ∀ c ∈ classes, m ≤ c.lenC) :
    ∀ c ∈ bridgeOuter classes idx, m ≤ c.lenC := by
  by_cases h : idx < classes.length
  · by_cases hgrow : (classes.getD idx EquivalenceClass.new_empty).lenC <
        ((bridgeInner classes idx (idx + 1)).getD idx EquivalenceClass.new_empty).lenC
    · rw [bridgeOuter_grow classes idx h hgrow]
      exact bridgeOuter_min_lenC _ idx m
        (bridgeInner_min_lenC classes idx (idx + 1) (by omega) m hall)
    · rw [bridgeOuter_advance classes idx h hgrow]
      exact bridgeOuter_min_lenC _ (idx + 1) m
        (bridgeInner_min_lenC classes idx (idx + 1) (by omega) m hall)
  · rw [bridgeOuter_exit classes idx h]
    exact hall
termination_by 2 * classes.length - idx
decreasing_by
  · rcases bridgeInner_eq_or_length_lt classes idx (idx + 1) with heq | hlt
    · rw [heq] at hgrow
      exact absurd hgrow (lt_irrefl _)
    · omega
  · rcases bridgeInner_eq_or_length_lt classes idx (idx + 1) with heq | hlt
    · rw [heq]
      omega
    · omega

theorem bridgeOuter_disjoint (classes : List EquivalenceClass) (idx : Nat)
    (hpre : ∀ i j, i < idx → i < j → j < classes.length →
      clsDisj (classes.getD i EquivalenceClass.new_empty)
        (classes.getD j EquivalenceClass.new_empty)) :
    ∀ i j, i < j → j < (bridgeOuter classes idx).length →
      clsDisj ((bridgeOuter classes idx).getD i EquivalenceClass.new_empty)
        ((bridgeOuter classes idx).getD j EquivalenceClass.new_empty) := by
  by_cases h : idx < classes.length
  · have hpre_inner : ∀ i j, i < idx → i < j →
        j < (bridgeInner classes idx (idx + 1)).length →
        clsDisj ((bridgeInner classes idx (idx + 1)).getD i EquivalenceClass.new_empty)
          ((bridgeInner classes idx (idx + 1)).getD j EquivalenceClass.new_empty) := by
      intro i j hi hij hjlen
      rw [bridgeInner_getD_stable classes idx (idx + 1) i (by omega) (by omega)]
      by_cases hj : j < idx
      · rw [bridgeInner_getD_stable classes idx (idx + 1) j (by omega) (by omega)]
        exact hpre i j hi hij (by omega)
      · intro e he hmem
        have htail : tailUnion (bridgeInner classes idx (idx + 1)) idx e :=
          ⟨j, by omega, hjlen, hmem⟩
        obtain ⟨j2, hj2, hj2len, hj2mem⟩ :=
          bridgeInner_tailUnion_sub classes idx (idx + 1) idx (le_refl idx)
            (by omega) e htail
        exact hpre i j2 hi (by omega) hj2len e he hj2mem
    by_cases hgrow : (classes.getD idx EquivalenceClass.new_empty).lenC <
        ((bridgeInner classes idx (idx + 1)).getD idx EquivalenceClass.new_empty).lenC
    · rw [bridgeOuter_grow classes idx h hgrow]
      exact bridgeOuter_disjoint (bridgeInner classes idx (idx + 1)) idx hpre_inner
    · rw [bridgeOuter_advance classes idx h hgrow]
      refine bridgeOuter_disjoint (bridgeInner classes idx (idx + 1)) (idx + 1) ?_
      intro i j hi hij hjlen
      by_cases hiidx : i < idx
      · exact hpre_inner i j hiidx hij hjlen
      · have hieq : i = idx := by omega
        rw [hieq]
        have hsame : (bridgeInner classes idx (idx + 1)).getD idx
            EquivalenceClass.new_empty = classes.getD idx EquivalenceClass.new_empty := by
          obtain ⟨t, ht⟩ := bridgeInner_idx_extend classes idx (idx + 1) (by omega)
          simp only [EquivalenceClass.lenC, not_lt] at hgrow
          rw [ht, List.length_append] at hgrow
          have htnil : t = [] := List.length_eq_zero.mp (by omega)
          exact EquivalenceClass.eq_of_exprs (by rw [ht, htnil, List.append_nil])
        exact bridgeInner_disjoint classes idx (idx + 1) (by omega) hsame
          (fun j2 hj2a hj2b _ => absurd (by omega : j2 < j2) (lt_irrefl j2)) j
          (by omega) hjlen
  · rw [bridgeOuter_exit classes idx h]
    intro i j hij hjlen
    exact hpre i j (by omega) hij hjlen
termination_by 2 * classes.length - idx
decreasing_by
  · rcases bridgeInner_eq_or_length_lt classes idx (idx + 1) with heq | hlt
    · rw [heq] at hgrow
      exact absurd hgrow (lt_irrefl _)
    · omega
  · rcases bridgeInner_eq_or_length_lt classes idx (idx + 1) with heq | hlt
    · rw [heq]
      omega
    · omega

theorem tailUnion_zero_iff (cs : List EquivalenceClass) (e : Expr) :
    tailUnion cs 0 e ↔ ∃ c ∈ cs, e ∈ c.exprs := by
  constructor
  · rintro ⟨j, _, hj, hmem⟩
    exact ⟨cs.getD j EquivalenceClass.new_empty, getD_mem _ _ _ hj, hmem⟩
  · rintro ⟨c, hc, hmem⟩
    rw [List.mem_iff_getElem] at hc
    obtain ⟨j, hj, rfl⟩ := hc
    exact ⟨j, Nat.zero_le _, hj, by rw [List.getD_eq_getElem _ _ hj]; exact hmem⟩

/-- Positional pairwise disjointness of a class list. -/
def posDisjoint (cs : List EquivalenceClass) : Prop :=
  ∀ i j, i < cs.length → j < cs.length → i ≠ j → ∀ e,
    e ∈ (cs.getD i EquivalenceClass.new_empty).exprs →
      e ∉ (cs.getD j EquivalenceClass.new_empty).exprs

theorem bridgeOuter_posDisjoint (classes : List EquivalenceClass) :
    posDisjoint (bridgeOuter classes 0) := by
  intro i j hi hj hne e hei hej
  have hd := bridgeOuter_disjoint classes 0
    (fun _ _ h0 _ _ => absurd h0 (Nat.not_lt_zero _))
  rcases Nat.lt_or_ge i j with hij | hij
  · exact hd i j hij hj e hei hej
  · exact hd j i (by omega) hi e hej hei

theorem remove_redundant_posDisjoint (g : EquivalenceGroup) :
    posDisjoint g.remove_redundant_entries.classes := by
  simp only [EquivalenceGroup.remove_redundant_entries, EquivalenceGroup.bridge_classes]
  exact bridgeOuter_posDisjoint _

theorem remove_redundant_min_lenC (g : EquivalenceGroup) :
    ∀ c ∈ g.remove_redundant_entries.classes, 2 ≤ c.lenC := by
  simp only [EquivalenceGroup.remove_redundant_entries, EquivalenceGroup.bridge_classes]
  refine bridgeOuter_min_lenC _ 0 2 ?_
  intro c hc
  have := List.of_mem_filter hc
  simpa [EquivalenceClass.lenC] using of_decide_eq_true this

/-- The group invariant of the specification: classes are pairwise disjoint
and each class has at least two members. -/
def EquivalenceGroup.invariant (g : EquivalenceGroup) : Prop :=
  posDisjoint g.classes ∧ ∀ c ∈ g.classes, 2 ≤ c.lenC

theorem remove_redundant_invariant (g : EquivalenceGroup) :
    g.remove_redundant_entries.invariant :=
  ⟨remove_redundant_posDisjoint g, remove_redundant_min_lenC g⟩

theorem new_invariant (classes : List EquivalenceClass) :
    (EquivalenceGroup.new classes).invariant :=
  remove_redundant_invariant ⟨classes⟩

theorem extendG_invariant (g other : EquivalenceGroup) :
    (g.extendG other).invariant :=
  remove_redundant_invariant ⟨g.classes ++ other.classes⟩

theorem findClassIdxAux_some_stable (cs : List EquivalenceClass) (e : Expr)
    (i a : Nat) : ∃ r, findClassIdxAux cs e i (some a) = some r := by
  induction cs generalizing i a with
  | nil => exact ⟨a, rfl⟩
  | cons c rest ih =>
    unfold findClassIdxAux
    by_cases hc : e ∈ c.exprs
    · simp only [if_pos hc]
      exact ih (i + 1) i
    · simp only [if_neg hc]
      exact ih (i + 1) a

theorem findClassIdxAux_sound (cs : List EquivalenceClass) (e : Expr)
    (i : Nat) (acc : Option Nat) (r : Nat)
    (h : findClassIdxAux cs e i acc = some r) :
    acc = some r ∨ ∃ p, p < cs.length ∧ r = i + p ∧
      e ∈ (cs.getD p EquivalenceClass.new_empty).exprs := by
  induction cs generalizing i acc with
  | nil => exact Or.inl h
  | cons c rest ih =>
    unfold findClassIdxAux at h
    rcases ih (i + 1) _ h with hacc | ⟨p, hp, hr, hmem⟩
    · by_cases hc : e ∈ c.exprs
      · rw [if_pos hc] at hacc
        injection hacc with hacc
        right
        refine ⟨0, by simp, by omega, ?_⟩
        simpa using hc
      · rw [if_neg hc] at hacc
        exact Or.inl hacc
    · right
      refine ⟨p + 1, ?_, by omega, ?_⟩
      · simp only [List.length_cons]
        omega
      · simpa using hmem

theorem findClassIdxAux_complete (cs : List EquivalenceClass) (e : Expr)
    (i : Nat) (acc : Option Nat) (p : Nat) (hp : p < cs.length)
    (hmem : e ∈ (cs.getD p EquivalenceClass.new_empty).exprs) :
    ∃ r, findClassIdxAux cs e i acc = some r := by
  induction cs generalizing i acc p with
  | nil => simp at hp
  | cons c rest ih =>
    unfold findClassIdxAux
    match p with
    | 0 =>
      simp only [List.getD_cons_zero] at hmem
      simp only [if_pos hmem]
      exact findClassIdxAux_some_stable rest e (i + 1) i
    | q + 1 =>
      exact ih (i + 1) _ q (by simp at hp; omega) (by simpa using hmem)

theorem findClassIdxAux_none (cs : List EquivalenceClass) (e : Expr)
    (i : Nat) (acc : Option Nat)
    (hnot : ∀ p, p < cs.length → e ∉ (cs.getD p EquivalenceClass.new_empty).exprs) :
    findClassIdxAux cs e i acc = acc := by
  induction cs generalizing i acc with
  | nil => rfl
  | cons c rest ih =>
    unfold findClassIdxAux
    have h0 : e ∉ c.exprs := by simpa using hnot 0 (by simp)
    simp only [if_neg h0]
    exact ih (i + 1) acc (fun p hp => by simpa using hnot (p + 1) (by simp; omega))

theorem findClassIdxAux_unique (cs : List EquivalenceClass) (e : Expr)
    (i : Nat) (acc : Option Nat) (p : Nat) (hp : p < cs.length)
    (hmem : e ∈ (cs.getD p EquivalenceClass.new_empty).exprs)
    (hothers : ∀ q, q < cs.length → q ≠ p →
      e ∉ (cs.getD q EquivalenceClass.new_empty).exprs) :
    findClassIdxAux cs e i acc = some (i + p) := by
  induction cs generalizing i acc p with
  | nil => simp at hp
  | cons c rest ih =>
    unfold findClassIdxAux
    match p with
    | 0 =>
      simp only [List.getD_cons_zero] at hmem
      simp only [if_pos hmem]
      rw [findClassIdxAux_none rest e (i + 1) (some i)
        (fun q hq => by simpa using hothers (q + 1) (by simp; omega) (by omega))]
      simp
    | q + 1 =>
      have h0 : e ∉ c.exprs := by simpa using hothers 0 (by simp) (by omega)
      simp only [if_neg h0]
      rw [ih (i + 1) acc q (by simp at hp; omega) (by simpa using hmem)
        (fun q2 hq2 hne => by simpa using hothers (q2 + 1) (by simp; omega) (by omega))]
      congr 1
      omega

theorem findClassIdx_sound (cs : List EquivalenceClass) (e : Expr) (r : Nat)
    (h : findClassIdx cs e = some r) :
    r < cs.length ∧ e ∈ (cs.getD r EquivalenceClass.new_empty).exprs := by
  rcases findClassIdxAux_sound cs e 0 none r h with hacc | ⟨p, hp, hr, hmem⟩
  · exact absurd hacc (by simp)
  · constructor
    · omega
    · have : r = p := by omega
      rwa [this]

theorem findClassIdx_none (cs : List EquivalenceClass) (e : Expr)
    (h : findClassIdx cs e = none) :
    ∀ p, p < cs.length → e ∉ (cs.getD p EquivalenceClass.new_empty).exprs := by
  intro p hp hmem
  obtain ⟨r, hr⟩ := findClassIdxAux_complete cs e 0 none p hp hmem
  rw [findClassIdx] at h
  rw [h] at hr
  exact Option.noConfusion hr

theorem findClassIdx_unique (cs : List EquivalenceClass) (e : Expr) (p : Nat)
    (hd : posDisjoint cs) (hp : p < cs.length)
    (hmem : e ∈ (cs.getD p EquivalenceClass.new_empty).exprs) :
    findClassIdx cs e = some p := by
  have := findClassIdxAux_unique cs e 0 none p hp hmem
    (fun q hq hne hqmem => hd q p hq hp hne e hqmem hmem)
  simpa using this

theorem EquivalenceGroup.classes_mk (cs : List EquivalenceClass) :
    (EquivalenceGroup.mk cs).classes = cs := rfl

theorem getD_append_lt {α : Type} (l₁ l₂ : List α) (p : Nat) (d : α)
    (h : p < l₁.length) : (l₁ ++ l₂).getD p d = l₁.getD p d := by
  rw [List.getD_eq_getElem _ _ (by simp; omega), List.getD_eq_getElem _ _ h]
  exact List.getElem_append_left h

theorem getD_concat_length {α : Type} (l : List α) (x d : α) :
    (l ++ [x]).getD l.length d = x := by
  rw [List.getD_eq_getElem _ _ (by simp)]
  exact List.getElem_concat_length l x l.length rfl _

theorem add_equal_conditions_min_lenC (g : EquivalenceGroup) (l r : Expr)
    (hne : l ≠ r) (hall : ∀ c ∈ g.classes, 2 ≤ c.lenC) :
    ∀ c ∈ (g.add_equal_conditions l r).classes, 2 ≤ c.lenC := by
  intro c hc
  cases hfl : findClassIdx g.classes l with
  | none =>
    cases hfr : findClassIdx g.classes r with
    | none =>
      simp only [EquivalenceGroup.add_equal_conditions, hfl, hfr,
        EquivalenceGroup.classes_mk] at hc
      rcases List.mem_append.mp hc with hmem | hmem
      · exact hall c hmem
      · simp only [List.mem_singleton] at hmem
        subst hmem
        simp [EquivalenceClass.new, EquivalenceClass.push,
          EquivalenceClass.new_empty, EquivalenceClass.lenC, Ne.symm hne]
    | some j =>
      simp only [EquivalenceGroup.add_equal_conditions, hfl, hfr,
        EquivalenceGroup.classes_mk] at hc
      rcases List.mem_or_eq_of_mem_set hc with hmem | heq
      · exact hall c hmem
      · obtain ⟨t, ht⟩ := (g.classes.getD j EquivalenceClass.new_empty).exprs_push_append l
        have hj := findClassIdx_sound _ _ _ hfr
        have h2 := hall _ (getD_mem g.classes j EquivalenceClass.new_empty hj.1)
        simp only [EquivalenceClass.lenC] at h2 ⊢
        rw [heq, ht, List.length_append]
        omega
  | some i =>
    cases hfr : findClassIdx g.classes r with
    | none =>
      simp only [EquivalenceGroup.add_equal_conditions, hfl, hfr,
        EquivalenceGroup.classes_mk] at hc
      rcases List.mem_or_eq_of_mem_set hc with hmem | heq
      · exact hall c hmem
      · obtain ⟨t, ht⟩ := (g.classes.getD i EquivalenceClass.new_empty).exprs_push_append r
        have hi := findClassIdx_sound _ _ _ hfl
        have h2 := hall _ (getD_mem g.classes i EquivalenceClass.new_empty hi.1)
        simp only [EquivalenceClass.lenC] at h2 ⊢
        rw [heq, ht, List.length_append]
        omega
    | some j =>
      simp only [EquivalenceGroup.add_equal_conditions, hfl, hfr] at hc
      by_cases hij : i = j
      · rw [if_pos hij] at hc
        exact hall c hc
      · rw [if_neg hij] at hc
        simp only [EquivalenceGroup.classes_mk] at hc
        have hi := findClassIdx_sound _ _ _ hfl
        have hj := findClassIdx_sound _ _ _ hfr
        have hmima : min i j < max i j := by omega
        have hmaxlt : max i j < g.classes.length := by
          rcases hi with ⟨hi1, _⟩
          rcases hj with ⟨hj1, _⟩
          omega
        rcases List.mem_or_eq_of_mem_set hc with hmem | heq
        · exact hall c (mem_swapRemove hmem)
        · have hbase : ((swapRemove g.classes (max i j)).getD (min i j)
              EquivalenceClass.new_empty) = g.classes.getD (min i j)
              EquivalenceClass.new_empty :=
            getD_swapRemove_ne _ _ _ _ (by omega) (by omega)
        
          have h2 := hall _ (getD_mem g.classes (min i j)
            EquivalenceClass.new_empty (by omega))
          calc 2 ≤ (g.classes.getD (min i j) EquivalenceClass.new_empty).lenC := h2
            _ ≤ c.lenC := by
              rw [heq, hbase]
              exact EquivalenceClass.lenC_extendC_ge _ _

theorem add_equal_conditions_posDisjoint (g : EquivalenceGroup) (l r : Expr)
    (hd : posDisjoint g.classes) :
    posDisjoint (g.add_equal_conditions l r).classes := by
  cases hfl : findClassIdx g.classes l with
  | none =>
    cases hfr : findClassIdx g.classes r with
    | none =>
      simp only [EquivalenceGroup.add_equal_conditions, hfl, hfr,
        EquivalenceGroup.classes_mk]
      intro p q hp hq hpq e hep heq
      simp only [List.length_append, List.length_singleton] at hp hq
      have hsing : ∀ p2, p2 < g.classes.length + 1 → p2 ≠ g.classes.length →
          p2 < g.classes.length := by omega
      by_cases hpl : p = g.classes.length
      · subst hpl
        have hq2 : q < g.classes.length := hsing q hq (by omega)
        rw [getD_concat_length] at hep
        rw [getD_append_lt _ _ _ _ hq2] at heq
        rw [EquivalenceClass.mem_new] at hep
        rcases List.mem_pair.mp hep with rfl | rfl
        · exact findClassIdx_none _ _ hfl q hq2 heq
        · exact findClassIdx_none _ _ hfr q hq2 heq
      · have hp2 : p < g.classes.length := hsing p hp hpl
        rw [getD_append_lt _ _ _ _ hp2] at hep
        by_cases hql : q = g.classes.length
        · subst hql
          rw [getD_concat_length] at heq
          rw [EquivalenceClass.mem_new] at heq
          rcases List.mem_pair.mp heq with rfl | rfl
          · exact findClassIdx_none _ _ hfl p hp2 hep
          · exact findClassIdx_none _ _ hfr p hp2 hep
        · have hq2 : q < g.classes.length := hsing q hq hql
          rw [getD_append_lt _ _ _ _ hq2] at heq
          exact hd p q hp2 hq2 hpq e hep heq
    | some j =>
      have hj := findClassIdx_sound _ _ _ hfr
      simp only [EquivalenceGroup.add_equal_conditions, hfl, hfr,
        EquivalenceGroup.classes_mk]
      intro p q hp hq hpq e hep heq
      simp only [List.length_set] at hp hq
      by_cases hpj : p = j
      · subst hpj
        rw [getD_set_self _ _ _ _ hj.1, EquivalenceClass.mem_push] at hep
        rw [getD_set_ne _ _ _ _ _ hpq] at heq
        rcases hep with hep | rfl
        · exact hd p q hp hq hpq e hep heq
        · exact findClassIdx_none _ _ hfl q hq heq
      · rw [getD_set_ne _ _ _ _ _ (Ne.symm hpj)] at hep
        by_cases hqj : q = j
        · subst hqj
          rw [getD_set_self _ _ _ _ hj.1, EquivalenceClass.mem_push] at heq
          rcases heq with heq | rfl
          · exact hd p q hp hq hpq e hep heq
          · exact findClassIdx_none _ _ hfl p hp hep
        · rw [getD_set_ne _ _ _ _ _ (Ne.symm hqj)] at heq
          exact hd p q hp hq hpq e hep heq
  | some i =>
    cases hfr : findClassIdx g.classes r with
    | none =>
      have hi := findClassIdx_sound _ _ _ hfl
      simp only [EquivalenceGroup.add_equal_conditions, hfl, hfr,
        EquivalenceGroup.classes_mk]
      intro p q hp hq hpq e hep heq
      simp only [List.length_set] at hp hq
      by_cases hpi : p = i
      · subst hpi
        rw [getD_set_self _ _ _ _ hi.1, EquivalenceClass.mem_push] at hep
        rw [getD_set_ne _ _ _ _ _ hpq] at heq
        rcases hep with hep | rfl
        · exact hd p q hp hq hpq e hep heq
        · exact findClassIdx_none _ _ hfr q hq heq
      · rw [getD_set_ne _ _ _ _ _ (Ne.symm hpi)] at hep
        by_cases hqi : q = i
        · subst hqi
          rw [getD_set_self _ _ _ _ hi.1, EquivalenceClass.mem_push] at heq
          rcases heq with heq | rfl
          · exact hd p q hp hq hpq e hep heq
          · exact findClassIdx_none _ _ hfr p hp hep
        · rw [getD_set_ne _ _ _ _ _ (Ne.symm hqi)] at heq
          exact hd p q hp hq hpq e hep heq
    | some j =>
      simp only [EquivalenceGroup.add_equal_conditions, hfl, hfr]
      by_cases hij : i = j
      · rw [if_pos hij]
        exact hd
      · rw [if_neg hij]
        simp only [EquivalenceGroup.classes_mk]
        have hi := findClassIdx_sound _ _ _ hfl
        have hj := findClassIdx_sound _ _ _ hfr
        have hfisi : min i j < max i j := by omega
        have hmaxlt : max i j < g.classes.length := by
          rcases hi with ⟨hi1, _⟩
          rcases hj with ⟨hj1, _⟩
          omega
        have hat_fi : ((swapRemove g.classes (max i j)).set (min i j)
            (((swapRemove g.classes (max i j)).getD (min i j)
              EquivalenceClass.new_empty).extendC
              (g.classes.getD (max i j) EquivalenceClass.new_empty))).getD (min i j)
              EquivalenceClass.new_empty =
            ((g.classes.getD (min i j) EquivalenceClass.new_empty).extendC
              (g.classes.getD (max i j) EquivalenceClass.new_empty)) := by
          rw [getD_set_self _ _ _ _ (by rw [swapRemove_length]; omega),
            getD_swapRemove_ne _ _ _ _ (by omega) (by omega)]
        have hsource : ∀ p, p < g.classes.length - 1 → ∀ e,
            e ∈ (((swapRemove g.classes (max i j)).set (min i j)
              (((swapRemove g.classes (max i j)).getD (min i j)
                EquivalenceClass.new_empty).extendC
                (g.classes.getD (max i j) EquivalenceClass.new_empty))).getD p
                EquivalenceClass.new_empty).exprs →
            ∃ a, a < g.classes.length ∧
              e ∈ (g.classes.getD a EquivalenceClass.new_empty).exprs ∧
              ((p = min i j ∧ (a = min i j ∨ a = max i j)) ∨
                (p ≠ min i j ∧ p = max i j ∧ a = g.classes.length - 1) ∨
                (p ≠ min i j ∧ p ≠ max i j ∧ a = p)) := by
          intro p hp e he
          by_cases hpfi : p = min i j
          · subst hpfi
            rw [hat_fi, EquivalenceClass.mem_extendC] at he
            rcases he with he | he
            · exact ⟨min i j, by omega, he, Or.inl ⟨rfl, Or.inl rfl⟩⟩
            · exact ⟨max i j, by omega, he, Or.inl ⟨rfl, Or.inr rfl⟩⟩
          · rw [getD_set_ne _ _ _ _ _ (Ne.symm hpfi)] at he
            by_cases hpsi : p = max i j
            · subst hpsi
              rw [getD_swapRemove_self _ _ _ (by omega)] at he
              exact ⟨g.classes.length - 1, by omega, he,
                Or.inr (Or.inl ⟨hpfi, rfl, rfl⟩)⟩
            · rw [getD_swapRemove_ne _ _ _ _ hpsi (by omega)] at he
              exact ⟨p, by omega, he, Or.inr (Or.inr ⟨hpfi, hpsi, rfl⟩)⟩
        intro p q hp hq hpq e hep heq
        rw [List.length_set, swapRemove_length] at hp hq
        obtain ⟨a, halt, hamem, hacon⟩ := hsource p hp e hep
        obtain ⟨b, hblt, hbmem, hbcon⟩ := hsource q hq e heq
        have hab : a ≠ b := by
          rcases hacon with ⟨hp1, ha1 | ha1⟩ | ⟨hp1, hp2, ha1⟩ | ⟨hp1, hp2, ha1⟩ <;>
            rcases hbcon with ⟨hq1, hb1 | hb1⟩ | ⟨hq1, hq2, hb1⟩ | ⟨hq1, hq2, hb1⟩ <;>
            omega
        exact hd a b halt hblt hab e hamem hbmem

theorem add_equal_conditions_same_class (g : EquivalenceGroup) (l r : Expr) :
    ∃ p, p < (g.add_equal_conditions l r).classes.length ∧
      l ∈ ((g.add_equal_conditions l r).classes.getD p
        EquivalenceClass.new_empty).exprs ∧
      r ∈ ((g.add_equal_conditions l r).classes.getD p
        EquivalenceClass.new_empty).exprs := by
  cases hfl : findClassIdx g.classes l with
  | none =>
    cases hfr : findClassIdx g.classes r with
    | none =>
      simp only [EquivalenceGroup.add_equal_conditions, hfl, hfr,
        EquivalenceGroup.classes_mk]
      refine ⟨g.classes.length, by simp, ?_, ?_⟩ <;>
        rw [getD_concat_length, EquivalenceClass.mem_new] <;> simp
    | some j =>
      have hj := findClassIdx_sound _ _ _ hfr
      simp only [EquivalenceGroup.add_equal_conditions, hfl, hfr,
        EquivalenceGroup.classes_mk]
      refine ⟨j, by simp only [List.length_set]; exact hj.1, ?_, ?_⟩ <;>
        rw [getD_set_self _ _ _ _ hj.1, EquivalenceClass.mem_push]
      · exact Or.inr rfl
      · exact Or.inl hj.2
  | some i =>
    cases hfr : findClassIdx g.classes r with
    | none =>
      have hi := findClassIdx_sound _ _ _ hfl
      simp only [EquivalenceGroup.add_equal_conditions, hfl, hfr,
        EquivalenceGroup.classes_mk]
      refine ⟨i, by simp only [List.length_set]; exact hi.1, ?_, ?_⟩ <;>
        rw [getD_set_self _ _ _ _ hi.1, EquivalenceClass.mem_push]
      · exact Or.inl hi.2
      · exact Or.inr rfl
    | some j =>
      have hi := findClassIdx_sound _ _ _ hfl
      have hj := findClassIdx_sound _ _ _ hfr
      simp only [EquivalenceGroup.add_equal_conditions, hfl, hfr]
      by_cases hij : i = j
      · rw [if_pos hij]
        subst hij
        exact ⟨i, hi.1, hi.2, hj.2⟩
      · rw [if_neg hij]
        simp only [EquivalenceGroup.classes_mk]
        have hmaxlt : max i j < g.classes.length := by
          rcases hi with ⟨hi1, _⟩
          rcases hj with ⟨hj1, _⟩
          omega
        have hat_fi : ((swapRemove g.classes (max i j)).set (min i j)
            (((swapRemove g.classes (max i j)).getD (min i j)
              EquivalenceClass.new_empty).extendC
              (g.classes.getD (max i j) EquivalenceClass.new_empty))).getD (min i j)
              EquivalenceClass.new_empty =
            ((g.classes.getD (min i j) EquivalenceClass.new_empty).extendC
              (g.classes.getD (max i j) EquivalenceClass.new_empty)) := by
          rw [getD_set_self _ _ _ _ (by rw [swapRemove_length]; omega),
            getD_swapRemove_ne _ _ _ _ (by omega) (by omega)]
        refine ⟨min i j, ?_, ?_, ?_⟩
        · rw [List.length_set, swapRemove_length]
          omega
        · rw [hat_fi, EquivalenceClass.mem_extendC]
          rcases le_or_lt i j with hle | hlt
          · left
            rw [min_eq_left hle]
            exact hi.2
          · right
            rw [max_eq_left (by omega)]
            exact hi.2
        · rw [hat_fi, EquivalenceClass.mem_extendC]
          rcases le_or_lt i j with hle | hlt
          · right
            rw [max_eq_right hle]
            exact hj.2
          · left
            rw [min_eq_right (by omega)]
            exact hj.2

theorem add_equal_conditions_noop (g : EquivalenceGroup) (l r : Expr)
    (p : Nat) (hd : posDisjoint g.classes) (hp : p < g.classes.length)
    (hl : l ∈ (g.classes.getD p EquivalenceClass.new_empty).exprs)
    (hr : r ∈ (g.classes.getD p EquivalenceClass.new_empty).exprs) :
    g.add_equal_conditions l r = g := by
  have h1 := findClassIdx_unique g.classes l p hd hp hl
  have h2 := findClassIdx_unique g.classes r p hd hp hr
  simp [EquivalenceGroup.add_equal_conditions, h1, h2]

theorem add_equal_conditions_invariant (g : EquivalenceGroup) (l r : Expr)
    (hg : g.invariant) (hne : l ≠ r) :
    (g.add_equal_conditions l r).invariant :=
  ⟨add_equal_conditions_posDisjoint g l r hg.1,
    add_equal_conditions_min_lenC g l r hne hg.2⟩

/-- Fuel-indexed evaluator for the inner bridging loop, used to compute
`bridge_classes` on concrete inputs; proven equal to `bridgeInner` when
given enough fuel. -/
def bridgeInnerFuel (fuel : Nat) (classes : List EquivalenceClass)
    (idx next : Nat) : List EquivalenceClass :=
  match fuel with
  | 0 => classes
  | fuel + 1 =>
    if next < classes.length then
      if (classes.getD idx EquivalenceClass.new_empty).contains_any
          (classes.getD next EquivalenceClass.new_empty) then
        bridgeInnerFuel fuel ((swapRemove classes next).set idx
          (((swapRemove classes next).getD idx EquivalenceClass.new_empty).extendC
            (classes.getD next EquivalenceClass.new_empty))) idx next
      else bridgeInnerFuel fuel classes idx (next + 1)
    else classes

theorem bridgeInnerFuel_eq (fuel : Nat) (classes : List EquivalenceClass)
    (idx next : Nat) (hf : classes.length - next ≤ fuel) :
    bridgeInnerFuel fuel classes idx next = bridgeInner classes idx next := by
  induction fuel generalizing classes next with
  | zero =>
    rw [bridgeInner_exit _ _ _ (by omega)]
    rfl
  | succ fuel ih =>
    by_cases h : next < classes.length
    · by_cases hc : (classes.getD idx EquivalenceClass.new_empty).contains_any
          (classes.getD next EquivalenceClass.new_empty)
      · rw [bridgeInner_merge _ _ _ h hc]
        show (if next < classes.length then _ else classes) = _
        rw [if_pos h, if_pos hc]
        refine ih _ next ?_
        rw [List.length_set, swapRemove_length]
        omega
      · rw [bridgeInner_skip _ _ _ h hc]
        show (if next < classes.length then _ else classes) = _
        rw [if_pos h, if_neg hc]
        exact ih classes (next + 1) (by omega)
    · rw [bridgeInner_exit _ _ _ h]
      show (if next < classes.length then _ else classes) = _
      rw [if_neg h]

/-- Fuel-indexed evaluator for the outer bridging loop. -/
def bridgeOuterFuel (fuel : Nat) (classes : List EquivalenceClass)
    (idx : Nat) : List EquivalenceClass :=
  match fuel with
  | 0 => classes
  | fuel + 1 =>
    if idx < classes.length then
      if (classes.getD idx EquivalenceClass.new_empty).lenC <
          ((bridgeInnerFuel classes.length classes idx (idx + 1)).getD idx
            EquivalenceClass.new_empty).lenC then
        bridgeOuterFuel fuel (bridgeInnerFuel classes.length classes idx (idx + 1)) idx
      else
        bridgeOuterFuel fuel (bridgeInnerFuel classes.length classes idx (idx + 1)) (idx + 1)
    else classes

theorem bridgeOuterFuel_eq (fuel : Nat) (classes : List EquivalenceClass)
    (idx : Nat) (hf : 2 * classes.length - idx ≤ fuel) :
    bridgeOuterFuel fuel classes idx = bridgeOuter classes idx := by
  induction fuel generalizing classes idx with
  | zero =>
    rw [bridgeOuter_exit _ _ (by omega)]
    rfl
  | succ fuel ih =>
    by_cases h : idx < classes.length
    · have hinner : bridgeInnerFuel classes.length classes idx (idx + 1) =
          bridgeInner classes idx (idx + 1) :=
        bridgeInnerFuel_eq _ _ _ _ (by omega)
      by_cases hgrow : (classes.getD idx EquivalenceClass.new_empty).lenC <
          ((bridgeInner classes idx (idx + 1)).getD idx EquivalenceClass.new_empty).lenC
      · rw [bridgeOuter_grow _ _ h hgrow]
        show (if idx < classes.length then _ else classes) = _
        rw [if_pos h, hinner, if_pos hgrow]
        refine ih _ idx ?_
        rcases bridgeInner_eq_or_length_lt classes idx (idx + 1) with heq | hlt
        · rw [heq] at hgrow
          exact absurd hgrow (lt_irrefl _)
        · omega
      · rw [bridgeOuter_advance _ _ h hgrow]
        show (if idx < classes.length then _ else classes) = _
        rw [if_pos h, hinner, if_neg hgrow]
        refine ih _ (idx + 1) ?_
        have := bridgeInner_length_le classes idx (idx + 1)
        omega
    · rw [bridgeOuter_exit _ _ h]
      show (if idx < classes.length then _ else classes) = _
      rw [if_neg h]

theorem bridge_classes_eval (g : EquivalenceGroup) :
    g.bridge_classes = ⟨bridgeOuterFuel (2 * g.classes.length) g.classes 0⟩ := by
  rw [EquivalenceGroup.bridge_classes,
    bridgeOuterFuel_eq (2 * g.classes.length) g.classes 0 (by omega)]

/-- C1: for every equivalence group, after `bridge_classes` completes every
two distinct classes in the resulting group are disjoint (share no
expression), and the union of the expressions in all resulting classes
equals the union of the expressions in all input classes. -/
theorem bridge_classes_partition (g : EquivalenceGroup) :
    (∀ i j, i < g.bridge_classes.classes.length →
      j < g.bridge_classes.classes.length → i ≠ j → ∀ e,
      e ∈ (g.bridge_classes.classes.getD i EquivalenceClass.new_empty).exprs →
      e ∉ (g.bridge_classes.classes.getD j EquivalenceClass.new_empty).exprs) ∧
    (∀ e : Expr, (∃ c ∈ g.bridge_classes.classes, e ∈ c.exprs) ↔
      ∃ c ∈ g.classes, e ∈ c.exprs) := by
  constructor
  · simp only [EquivalenceGroup.bridge_classes, EquivalenceGroup.classes_mk]
    exact bridgeOuter_posDisjoint g.classes
  · intro e
    simp only [EquivalenceGroup.bridge_classes, EquivalenceGroup.classes_mk]
    rw [← tailUnion_zero_iff, ← tailUnion_zero_iff]
    exact bridgeOuter_tailUnion0 g.classes 0 e

theorem bridge_classes_partition_witness :
    Expr.lit 1 ∉
      (((EquivalenceGroup.mk [⟨[Expr.lit 1, Expr.lit 2]⟩,
        ⟨[Expr.lit 3, Expr.lit 4]⟩]).bridge_classes).classes.getD 1
        EquivalenceClass.new_empty).exprs ∧
    ((∃ c ∈ ((EquivalenceGroup.mk [⟨[Expr.lit 1, Expr.lit 2]⟩,
        ⟨[Expr.lit 3, Expr.lit 4]⟩]).bridge_classes).classes, Expr.lit 1 ∈ c.exprs) ↔
      ∃ c ∈ [(⟨[Expr.lit 1, Expr.lit 2]⟩ : EquivalenceClass),
        ⟨[Expr.lit 3, Expr.lit 4]⟩], Expr.lit 1 ∈ c.exprs) := by
  constructor
  · exact (bridge_classes_partition ⟨[⟨[Expr.lit 1, Expr.lit 2]⟩,
      ⟨[Expr.lit 3, Expr.lit 4]⟩]⟩).1 0 1
      (by simp only [bridge_classes_eval]; decide)
      (by simp only [bridge_classes_eval]; decide)
      (by decide) (Expr.lit 1)
      (by simp only [bridge_classes_eval]; decide)
  · exact (bridge_classes_partition ⟨[⟨[Expr.lit 1, Expr.lit 2]⟩,
      ⟨[Expr.lit 3, Expr.lit 4]⟩]⟩).2 (Expr.lit 1)

/-- C2 (counterexample): the empty group satisfies the invariant, yet
`add_equal_conditions(a, a)` with a fresh expression `a` appends the
singleton class `{a}`, so the resulting group violates the minimum
class-size part of the invariant. -/
theorem add_equal_conditions_singleton_cex :
    EquivalenceGroup.emptyG.invariant ∧
    ¬ (EquivalenceGroup.emptyG.add_equal_conditions (Expr.lit 0)
        (Expr.lit 0)).invariant := by
  constructor
  · constructor
    · intro i j hi hj hne e hei hej
      simp [EquivalenceGroup.emptyG] at hi
    · intro c hc
      simp [EquivalenceGroup.emptyG] at hc
  · intro h
    have hcls : (EquivalenceGroup.emptyG.add_equal_conditions (Expr.lit 0)
        (Expr.lit 0)).classes = [⟨[Expr.lit 0]⟩] := by decide
    have h2 := h.2 ⟨[Expr.lit 0]⟩ (by rw [hcls]; exact List.mem_singleton_self _)
    simp [EquivalenceClass.lenC] at h2

/-- C2 (amended): `new` on an arbitrary class list and `extend` always
establish the group invariant (pairwise-disjoint classes, each of size at
least two); `add_equal_conditions` preserves it provided the two added
expressions are structurally distinct (adding `a = a` for a fresh `a`
creates a singleton class, see the counterexample). -/
theorem group_mutation_invariant :
    (∀ classes, (EquivalenceGroup.new classes).invariant) ∧
    (∀ g other : EquivalenceGroup, (g.extendG other).invariant) ∧
    (∀ (g : EquivalenceGroup) (l r : Expr), g.invariant → l ≠ r →
      (g.add_equal_conditions l r).invariant) :=
  ⟨new_invariant, extendG_invariant, add_equal_conditions_invariant⟩

theorem group_mutation_invariant_witness :
    (EquivalenceGroup.new [⟨[Expr.lit 1, Expr.lit 2]⟩]).invariant ∧
    (EquivalenceGroup.emptyG.extendG ⟨[⟨[Expr.lit 1, Expr.lit 2]⟩]⟩).invariant ∧
    ((EquivalenceGroup.new [⟨[Expr.lit 1, Expr.lit 2]⟩]).add_equal_conditions
      (Expr.lit 1) (Expr.lit 3)).invariant :=
  ⟨group_mutation_invariant.1 _, group_mutation_invariant.2.1 _ _,
    group_mutation_invariant.2.2 _ _ _ (group_mutation_invariant.1 _) (by decide)⟩

/-- Set-of-sets equality on groups (spec notion of group equality). -/
def EquivalenceGroup.setEq (g h : EquivalenceGroup) : Prop :=
  (∀ c ∈ g.classes, ∃ d ∈ h.classes, ∀ e, e ∈ c.exprs ↔ e ∈ d.exprs) ∧
  (∀ d ∈ h.classes, ∃ c ∈ g.classes, ∀ e, e ∈ c.exprs ↔ e ∈ d.exprs)

theorem EquivalenceGroup.setEq_refl (g : EquivalenceGroup) : g.setEq g :=
  ⟨fun c hc => ⟨c, hc, fun _ => Iff.rfl⟩, fun c hc => ⟨c, hc, fun _ => Iff.rfl⟩⟩

/-- C9: on a group satisfying the invariant, calling
`add_equal_conditions(a, b)` twice gives literally the same group as
calling it once (hence in particular the same group as a set of sets). -/
theorem add_equal_conditions_idempotent (g : EquivalenceGroup) (a b : Expr)
    (hg : g.invariant) :
    (g.add_equal_conditions a b).add_equal_conditions a b =
      g.add_equal_conditions a b ∧
    EquivalenceGroup.setEq
      ((g.add_equal_conditions a b).add_equal_conditions a b)
      (g.add_equal_conditions a b) := by
  obtain ⟨p, hp, hl, hr⟩ := add_equal_conditions_same_class g a b
  have heq := add_equal_conditions_noop (g.add_equal_conditions a b) a b p
    (add_equal_conditions_posDisjoint g a b hg.1) hp hl hr
  refine ⟨heq, ?_⟩
  rw [heq]
  exact EquivalenceGroup.setEq_refl _

theorem add_equal_conditions_idempotent_witness :
    ((EquivalenceGroup.new [⟨[Expr.lit 1, Expr.lit 2]⟩]).add_equal_conditions
        (Expr.lit 1) (Expr.lit 3)).add_equal_conditions (Expr.lit 1) (Expr.lit 3) =
      (EquivalenceGroup.new [⟨[Expr.lit 1, Expr.lit 2]⟩]).add_equal_conditions
        (Expr.lit 1) (Expr.lit 3) ∧
    EquivalenceGroup.setEq
      (((EquivalenceGroup.new [⟨[Expr.lit 1, Expr.lit 2]⟩]).add_equal_conditions
        (Expr.lit 1) (Expr.lit 3)).add_equal_conditions (Expr.lit 1) (Expr.lit 3))
      ((EquivalenceGroup.new [⟨[Expr.lit 1, Expr.lit 2]⟩]).add_equal_conditions
        (Expr.lit 1) (Expr.lit 3)) :=
  add_equal_conditions_idempotent _ _ _ (new_invariant _)

/-- Modelled from the spec: the expression-tree rewrite utility
(`TreeNode::transform` from `datafusion_common`, which is not among the
sources). Per the specification, the traversal visits and potentially
rewrites a node before deciding whether to descend into unmatched
children: a node the closure rewrites is wholly replaced and its former
children are not visited; otherwise the children are rewritten
recursively and the node is rebuilt with the new children. -/
def Expr.transformTopDown (f : Expr → Option Expr) : Expr → Expr
  | .binary op l r =>
    match f (.binary op l r) with
    | some e2 => e2
    | none => .binary op (l.transformTopDown f) (r.transformTopDown f)
  | e =>
    match f e with
    | some e2 => e2
    | none => e

theorem Expr.transformTopDown_eq (f : Expr → Option Expr) (e : Expr) :
    e.transformTopDown f =
      match f e with
      | some e2 => e2
      | none =>
        match e with
        | .binary op l r => .binary op (l.transformTopDown f) (r.transformTopDown f)
        | e => e := by
  cases e <;> rfl

/-- The rewrite applied at each node by `normalize_expr`: the first class
containing the expression maps it to that class's canonical expression.
(The `getD` default is never used: a class containing the expression is
nonempty, mirroring the `unwrap` in the source.) -/
def normalizeStep (g : EquivalenceGroup) (e : Expr) : Option Expr :=
  match g.classes.find? (fun cls => decide (e ∈ cls.exprs)) with
  | some cls => some (cls.canonical_expr.getD e)
  | none => none

/-- `EquivalenceGroup::normalize_expr`. -/
def EquivalenceGroup.normalize_expr (g : EquivalenceGroup) (e : Expr) : Expr :=
  Expr.transformTopDown (normalizeStep g) e

/-- True when no subtree of the expression belongs to any class of the
group. -/
def noSubtreeMatch (g : EquivalenceGroup) : Expr → Bool
  | .binary op l r =>
    decide (∀ cls ∈ g.classes, Expr.binary op l r ∉ cls.exprs) &&
      noSubtreeMatch g l && noSubtreeMatch g r
  | e => decide (∀ cls ∈ g.classes, e ∉ cls.exprs)

theorem find?_none_of_no_class (g : EquivalenceGroup) (e : Expr)
    (h : ∀ cls ∈ g.classes, e ∉ cls.exprs) :
    g.classes.find? (fun cls => decide (e ∈ cls.exprs)) = none := by
  rw [List.find?_eq_none]
  intro cls hcls
  simp only [decide_eq_true_eq]
  exact h cls hcls

theorem normalize_expr_of_find?_some (g : EquivalenceGroup) (e : Expr)
    (cls : EquivalenceClass)
    (hf : g.classes.find? (fun cls => decide (e ∈ cls.exprs)) = some cls) :
    g.normalize_expr e = cls.canonical_expr.getD e := by
  have hstep : normalizeStep g e = some (cls.canonical_expr.getD e) := by
    rw [normalizeStep, hf]
  rw [EquivalenceGroup.normalize_expr, Expr.transformTopDown_eq, hstep]

theorem normalize_expr_of_no_class (g : EquivalenceGroup) (op : Op)
    (l r : Expr) (h : ∀ cls ∈ g.classes, Expr.binary op l r ∉ cls.exprs) :
    g.normalize_expr (Expr.binary op l r) =
      Expr.binary op (g.normalize_expr l) (g.normalize_expr r) := by
  have hstep : normalizeStep g (Expr.binary op l r) = none := by
    rw [normalizeStep, find?_none_of_no_class g _ h]
  rw [EquivalenceGroup.normalize_expr, Expr.transformTopDown_eq, hstep]
  rfl

theorem normalize_expr_leaf_of_no_class (g : EquivalenceGroup) (e : Expr)
    (hleaf : e.children = []) (h : ∀ cls ∈ g.classes, e ∉ cls.exprs) :
    g.normalize_expr e = e := by
  have hstep : normalizeStep g e = none := by
    rw [normalizeStep, find?_none_of_no_class g _ h]
  rw [EquivalenceGroup.normalize_expr, Expr.transformTopDown_eq, hstep]
  cases e with
  | column nm i => rfl
  | lit v => rfl
  | binary op l r => simp [Expr.children] at hleaf

/-- C3: normalization replaces every subtree that directly matches a class
member by that class's canonical representative (its first-inserted
member), without visiting the replaced node's former children; an
unmatched node is rebuilt from its normalized children; and an expression
none of whose subtrees matches any class is returned unchanged. -/
theorem normalize_expr_spec (g : EquivalenceGroup) :
    (∀ e, (∃ cls ∈ g.classes, e ∈ cls.exprs) →
      ∃ cls ∈ g.classes, e ∈ cls.exprs ∧
        g.normalize_expr e = cls.canonical_expr.getD e) ∧
    (∀ op l r, (∀ cls ∈ g.classes, Expr.binary op l r ∉ cls.exprs) →
      g.normalize_expr (Expr.binary op l r) =
        Expr.binary op (g.normalize_expr l) (g.normalize_expr r)) ∧
    (∀ e, noSubtreeMatch g e = true → g.normalize_expr e = e) := by
  refine ⟨?_, ?_, ?_⟩
  · intro e he
    cases hf : g.classes.find? (fun cls => decide (e ∈ cls.exprs)) with
    | none =>
      obtain ⟨cls, hcls, hmem⟩ := he
      have := List.find?_eq_none.mp hf cls hcls
      simp only [decide_eq_true_eq] at this
      exact absurd hmem this
    | some cls =>
      refine ⟨cls, List.mem_of_find?_eq_some hf, ?_, ?_⟩
      · have := List.find?_some hf
        simpa using this
      · exact normalize_expr_of_find?_some g e cls hf
  · exact normalize_expr_of_no_class g
  · intro e
    induction e with
    | column nm i =>
      intro h
      simp only [noSubtreeMatch, decide_eq_true_eq] at h
      exact normalize_expr_leaf_of_no_class g _ rfl h
    | lit v =>
      intro h
      simp only [noSubtreeMatch, decide_eq_true_eq] at h
      exact normalize_expr_leaf_of_no_class g _ rfl h
    | binary op l r ihl ihr =>
      intro h
      simp only [noSubtreeMatch, Bool.and_eq_true, decide_eq_true_eq] at h
      rw [normalize_expr_of_no_class g op l r h.1.1, ihl h.1.2, ihr h.2]

theorem normalize_expr_spec_witness :
    (∃ cls ∈ (EquivalenceGroup.mk [⟨[Expr.lit 1, Expr.lit 2]⟩]).classes,
      Expr.lit 2 ∈ cls.exprs ∧
      (EquivalenceGroup.mk [⟨[Expr.lit 1, Expr.lit 2]⟩]).normalize_expr
        (Expr.lit 2) = cls.canonical_expr.getD (Expr.lit 2)) ∧
    ((EquivalenceGroup.mk [⟨[Expr.lit 1, Expr.lit 2]⟩]).normalize_expr
      (Expr.binary Op.plus (Expr.lit 2) (Expr.lit 3)) =
      Expr.binary Op.plus
        ((EquivalenceGroup.mk [⟨[Expr.lit 1, Expr.lit 2]⟩]).normalize_expr
          (Expr.lit 2))
        ((EquivalenceGroup.mk [⟨[Expr.lit 1, Expr.lit 2]⟩]).normalize_expr
          (Expr.lit 3))) ∧
    ((EquivalenceGroup.mk [⟨[Expr.lit 1, Expr.lit 2]⟩]).normalize_expr
      (Expr.lit 5) = Expr.lit 5) :=
  ⟨(normalize_expr_spec _).1 (Expr.lit 2) ⟨⟨[Expr.lit 1, Expr.lit 2]⟩,
      by decide, by decide⟩,
    (normalize_expr_spec _).2.1 Op.plus (Expr.lit 2) (Expr.lit 3) (by decide),
    (normalize_expr_spec _).2.2 (Expr.lit 5) (by decide)⟩

/-- `EquivalenceGroup::get_equivalence_class`: the first class containing
the expression, if any. -/
def EquivalenceGroup.get_equivalence_class (g : EquivalenceGroup) (e : Expr) :
    Option EquivalenceClass :=
  g.classes.find? (fun cls => decide (e ∈ cls.exprs))

/-- Whether the optionally-found class contains the given expression
(`is_some_and`-style check used by `exprs_equal`). -/
def optionClassContains (o : Option EquivalenceClass) (e : Expr) : Bool :=
  match o with
  | some cls => decide (e ∈ cls.exprs)
  | none => false

/-- `EquivalenceGroup::exprs_equal`. After the direct-equality and
class-membership checks, the source requires both sides to be non-leaf,
have equal `type_id` and equal child counts, and recursively-equal
children. In this embedding the only non-leaf node is `binary` (whose two
children always count 2 and whose dynamic type tag ignores the operator,
exactly as `BinaryExpr`'s `type_id` does), so those three checks reduce
to the final pattern match. -/
def EquivalenceGroup.exprs_equal (g : EquivalenceGroup) : Expr → Expr → Bool
  | l, r =>
    if l = r then true
    else if optionClassContains (g.get_equivalence_class l) r then true
    else if optionClassContains (g.get_equivalence_class r) l then true
    else
      match l, r with
      | .binary _ ll lr, .binary _ rl rr =>
        g.exprs_equal ll rl && g.exprs_equal lr rr
      | _, _ => false

/-- C5: `exprs_equal` is a congruence on compound nodes over equivalent
operands (two binary expressions over pairwise `exprs_equal` operands are
`exprs_equal`), and on the concrete group with classes `{a, x}` and
`{b, y}` it validates `a + b ~ x + y`, refutes `a + b ~ x + a`, and
validates `a + 1 ~ x + 1`. -/
theorem exprs_equal_congruence (g : EquivalenceGroup) :
    (∀ (op : Op) (a b c d : Expr), g.exprs_equal a c = true →
      g.exprs_equal b d = true →
      g.exprs_equal (Expr.binary op a b) (Expr.binary op c d) = true) ∧
    ((EquivalenceGroup.mk
        [⟨[Expr.column ("a") 0, Expr.column ("x") 2]⟩,
         ⟨[Expr.column ("b") 1, Expr.column ("y") 3]⟩]).exprs_equal
      (Expr.binary Op.plus (Expr.column ("a") 0) (Expr.column ("b") 1))
      (Expr.binary Op.plus (Expr.column ("x") 2) (Expr.column ("y") 3)) = true ∧
    (EquivalenceGroup.mk
        [⟨[Expr.column ("a") 0, Expr.column ("x") 2]⟩,
         ⟨[Expr.column ("b") 1, Expr.column ("y") 3]⟩]).exprs_equal
      (Expr.binary Op.plus (Expr.column ("a") 0) (Expr.column ("b") 1))
      (Expr.binary Op.plus (Expr.column ("x") 2) (Expr.column ("a") 0)) = false ∧
    (EquivalenceGroup.mk
        [⟨[Expr.column ("a") 0, Expr.column ("x") 2]⟩,
         ⟨[Expr.column ("b") 1, Expr.column ("y") 3]⟩]).exprs_equal
      (Expr.binary Op.plus (Expr.column ("a") 0) (Expr.lit 1))
      (Expr.binary Op.plus (Expr.column ("x") 2) (Expr.lit 1)) = true) := by
  constructor
  · intro op a b c d hac hbd
    rw [EquivalenceGroup.exprs_equal]
    split
    · rfl
    · split
      · rfl
      · split
        · rfl
        · rw [hac, hbd]
          rfl
  · refine ⟨by decide, by decide, by decide⟩

theorem exprs_equal_congruence_witness :
    (EquivalenceGroup.mk
        [⟨[Expr.column ("a") 0, Expr.column ("x") 2]⟩,
         ⟨[Expr.column ("b") 1, Expr.column ("y") 3]⟩]).exprs_equal
      (Expr.binary Op.multiply (Expr.column ("a") 0) (Expr.column ("b") 1))
      (Expr.binary Op.multiply (Expr.column ("x") 2) (Expr.column ("y") 3)) =
        true :=
  (exprs_equal_congruence _).1 Op.multiply _ _ _ _ (by decide) (by decide)

/-- The scalar values this code constructs (the `ScalarValue` variants of
`datafusion_common` actually produced here): `UInt64` with an optional
value, where `none` encodes NULL (used for unbounded frame offsets), and
`Utf8` with an optional string (used for RANGE frame offsets). -/
inductive ScalarValue
  | uint64 (v : Option Nat)
  | utf8 (s : Option String)
  deriving DecidableEq

/-- `ScalarValue::is_null`. -/
def ScalarValue.is_null : ScalarValue → Bool
  | .uint64 none => true
  | .utf8 none => true
  | _ => false

/-- `AcrossPartitions`: uniformity tag of a constant expression. -/
inductive AcrossPartitions
  | heterogeneous
  | uniform (value : Option ScalarValue)
  deriving DecidableEq

/-- `impl Default for AcrossPartitions`: `Heterogeneous`. -/
def AcrossPartitions.defaultTag : AcrossPartitions := .heterogeneous

/-- `ConstExpr`: an expression known constant, tagged with uniformity. -/
structure ConstExpr where
  expr : Expr
  across_partitions : AcrossPartitions
  deriving DecidableEq

/-- `ConstExpr::new`: tags the expression with the default
(`Heterogeneous`) uniformity. -/
def ConstExpr.new (expr : Expr) : ConstExpr :=
  ⟨expr, AcrossPartitions.defaultTag⟩

/-- `ConstExpr::with_across_partitions`. -/
def ConstExpr.with_across_partitions (c : ConstExpr)
    (across_partitions : AcrossPartitions) : ConstExpr :=
  { c with across_partitions := across_partitions }

/-- `impl From<Arc<dyn PhysicalExpr>> for ConstExpr`. -/
def ConstExpr.fromOwned (expr : Expr) : ConstExpr := ConstExpr.new expr

/-- `impl From<&Arc<dyn PhysicalExpr>> for ConstExpr`: clones the shared
expression and defers to `new`. -/
def ConstExpr.fromRef (expr : Expr) : ConstExpr := ConstExpr.new expr

/-- C10: every `ConstExpr` built by `new` or either `From` conversion
carries the `Heterogeneous` tag, and `with_across_partitions` replaces
only the tag, leaving the wrapped expression unchanged. -/
theorem const_expr_default_heterogeneous :
    (∀ e, (ConstExpr.new e).across_partitions =
      AcrossPartitions.heterogeneous) ∧
    (∀ e, ConstExpr.fromOwned e = ConstExpr.new e) ∧
    (∀ e, ConstExpr.fromRef e = ConstExpr.new e) ∧
    (∀ (c : ConstExpr) (a : AcrossPartitions),
      (c.with_across_partitions a).across_partitions = a ∧
      (c.with_across_partitions a).expr = c.expr) :=
  ⟨fun _ => rfl, fun _ => rfl, fun _ => rfl, fun _ _ => ⟨rfl, rfl⟩⟩

/-- `WindowFrameBound`: the five boundary forms; `preceding`/`following`
with a NULL scalar encode the unbounded variants. -/
inductive WindowFrameBound
  | preceding (v : ScalarValue)
  | currentRow
  | following (v : ScalarValue)
  deriving DecidableEq

/-- `WindowFrameBound::is_unbounded`. -/
def WindowFrameBound.is_unbounded : WindowFrameBound → Bool
  | .preceding v => v.is_null
  | .currentRow => false
  | .following v => v.is_null

/-- `WindowFrameUnits`: ROWS, RANGE or GROUPS. -/
inductive WindowFrameUnits
  | rows
  | range
  | groups
  deriving DecidableEq

/-- The data-type tag of a scalar (`ScalarValue::data_type`). -/
inductive DataType
  | uint64T
  | utf8T
  deriving DecidableEq

def ScalarValue.dataType : ScalarValue → DataType
  | .uint64 _ => .uint64T
  | .utf8 _ => .utf8T

/-- Modelled from the spec: `ScalarValue::new_zero` (from
`datafusion_common`, not among the sources) produces the zero of a
numeric data type and fails (`Err`) for a non-numeric type such as Utf8,
for which no zero scalar exists. -/
def ScalarValue.new_zero : DataType → Option ScalarValue
  | .uint64T => some (.uint64 (some 0))
  | .utf8T => none

/-- `PartialOrd::gt` on the scalar values compared by `new_bounds`: a
non-null `UInt64` against the `UInt64` zero. The code path guarding this
comparison excludes NULLs (`is_null`) and non-numeric values (`new_zero`
fails on them), so the remaining cases are never reached. -/
def ScalarValue.gtScalar : ScalarValue → ScalarValue → Bool
  | .uint64 (some a), .uint64 (some b) => decide (b < a)
  | _, _ => false

/-- `WindowFrame`: frame units, two bounds and the computed causal flag. -/
structure WindowFrame where
  units : WindowFrameUnits
  start_bound : WindowFrameBound
  end_bound : WindowFrameBound
  causal : Bool
  deriving DecidableEq

/-- `WindowFrame::is_causal`. -/
def WindowFrame.is_causal (f : WindowFrame) : Bool := f.causal

/-- `WindowFrame::new_bounds`: computes the causal flag from the units and
the end bound. -/
def WindowFrame.new_bounds (units : WindowFrameUnits)
    (start_bound end_bound : WindowFrameBound) : WindowFrame :=
  let causal :=
    match units with
    | .rows =>
      match end_bound with
      | .following value =>
        if value.is_null then false
        else
          match ScalarValue.new_zero value.dataType with
          | some zero => decide (value = zero)
          | none => false
      | _ => true
    | .range | .groups =>
      match end_bound with
      | .preceding value =>
        if value.is_null then true
        else
          match ScalarValue.new_zero value.dataType with
          | some zero => value.gtScalar zero
          | none => false
      | _ => false
  ⟨units, start_bound, end_bound, causal⟩

/-- The causality condition exactly as the claim states it: for ROWS
frames the end bound is current-row, an N-preceding bound (an offset is
present, i.e. not unbounded), or a zero-offset N-following bound; for
RANGE and GROUPS frames the end bound is an unbounded-preceding or
positive-offset preceding bound. Offsets are read numerically, matching
the non-negative-integer offsets of the claim's vocabulary. -/
def claimCausalC8 (units : WindowFrameUnits) (end_bound : WindowFrameBound) :
    Bool :=
  match units with
  | .rows =>
    match end_bound with
    | .currentRow => true
    | .preceding v => !v.is_null
    | .following v =>
      match v with
      | .uint64 (some 0) => true
      | _ => false
  | .range | .groups =>
    match end_bound with
    | .preceding v =>
      v.is_null ||
        match v with
        | .uint64 (some (_ + 1)) => true
        | _ => false
    | _ => false

/-- C8 (counterexample): a ROWS frame whose end bound is
UNBOUNDED PRECEDING is marked causal by `new_bounds` (the `_ => true`
arm), but the claim's list for ROWS (current-row, N-preceding, zero-offset
N-following) excludes unbounded-preceding. -/
theorem new_bounds_causal_cex :
    (WindowFrame.new_bounds WindowFrameUnits.rows WindowFrameBound.currentRow
      (WindowFrameBound.preceding (ScalarValue.uint64 none))).causal = true ∧
    claimCausalC8 WindowFrameUnits.rows
      (WindowFrameBound.preceding (ScalarValue.uint64 none)) = false := by
  decide

/-- C8 (amended): a frame built by `new_bounds` is causal exactly when:
for ROWS frames, the end bound is anything but an N-following bound with
a nonzero, non-numeric or unbounded offset (i.e. current-row, any
preceding bound including unbounded-preceding, or an N-following bound
with zero numeric offset); for RANGE and GROUPS frames, the end bound is
an unbounded-preceding bound or a preceding bound with a positive numeric
offset. -/
theorem new_bounds_causal_amended (units : WindowFrameUnits)
    (start_bound end_bound : WindowFrameBound) :
    (WindowFrame.new_bounds units start_bound end_bound).causal =
      (match units with
      | .rows =>
        match end_bound with
        | .following v =>
          match v with
          | .uint64 (some 0) => true
          | _ => false
        | _ => true
      | .range | .groups =>
        match end_bound with
        | .preceding v =>
          v.is_null ||
            match v with
            | .uint64 (some (_ + 1)) => true
            | _ => false
        | _ => false) := by
  cases units <;> cases end_bound <;>
    first
      | rfl
      | (rename_i v
         match v with
         | .uint64 none => rfl
         | .uint64 (some 0) => rfl
         | .uint64 (some (k + 1)) =>
           simp [WindowFrame.new_bounds, ScalarValue.gtScalar,
             ScalarValue.is_null, ScalarValue.dataType, ScalarValue.new_zero]
         | .utf8 none => rfl
         | .utf8 (some s) => rfl)

/-- The `sqlparser::ast` fragments the window-frame conversion inspects
(external crate); only the constructors this module matches on are
modelled, everything else is collapsed into the catch-all constructors. -/
inductive AstValue
  | number (s : String) (long : Bool)
  | singleQuotedString (s : String)
  | otherValue
  deriving DecidableEq

inductive AstExpr
  | value (v : AstValue)
  | interval (value : AstExpr) (leading_field : Option String)
      (leading_precision : Option Nat) (last_field : Option String)
      (fractional_seconds_precision : Option Nat)
  | otherExpr
  deriving DecidableEq

inductive AstWindowFrameBound
  | currentRow
  | preceding (e : Option AstExpr)
  | following (e : Option AstExpr)
  deriving DecidableEq

inductive AstWindowFrameUnits
  | rows
  | range
  | groups
  deriving DecidableEq

/-- `From<ast::WindowFrameUnits> for WindowFrameUnits`. -/
def AstWindowFrameUnits.toUnits : AstWindowFrameUnits → WindowFrameUnits
  | .range => .range
  | .groups => .groups
  | .rows => .rows

structure AstWindowFrame where
  units : AstWindowFrameUnits
  start_bound : AstWindowFrameBound
  end_bound : Option AstWindowFrameBound
  deriving DecidableEq

/-- Planning/SQL errors of the window-frame conversion; one constructor
per distinct error message in the source. -/
inductive PlanError
  | startBoundUnboundedFollowing
  | endBoundUnboundedPreceding
  | rowsGroupsOffsetNotNonNegativeInteger
  | intervalExprInvalid
  | rangeOffsetInvalid
  | numberParseError
  deriving DecidableEq

instance {e a : Type} [DecidableEq e] [DecidableEq a] :
    DecidableEq (Except e a) := fun x y =>
  match x, y with
  | .ok x1, .ok y1 =>
    if h : x1 = y1 then isTrue (by rw [h]) else
      isFalse (by
        intro hh
        cases hh
        exact h rfl)
  | .error x1, .error y1 =>
    if h : x1 = y1 then isTrue (by rw [h]) else
      isFalse (by
        intro hh
        cases hh
        exact h rfl)
  | .ok _, .error _ => isFalse (fun h => Except.noConfusion h)
  | .error _, .ok _ => isFalse (fun h => Except.noConfusion h)

/-- Decimal parsing of a candidate offset string: the digits value when
every character is a digit, absent otherwise. -/
def parseDecimal (s : String) : Option Nat :=
  let cs := s.data
  if cs = [] then none
  else if cs.all (fun c => decide (('0').toNat ≤ c.toNat) &&
      decide (c.toNat ≤ ('9').toNat)) then
    some (cs.foldl (fun acc c => 10 * acc + (c.toNat - ('0').toNat)) 0)
  else none

/-- Modelled from the spec: `ScalarValue::try_from_string` at type UInt64
(from `datafusion_common`, not among the sources) parses a decimal string
into a non-negative integer bound and errors otherwise. -/
def tryFromStringUInt64 (s : String) : Except PlanError ScalarValue :=
  match parseDecimal s with
  | some n => .ok (.uint64 (some n))
  | none => .error .numberParseError

/-- `convert_frame_bound_to_scalar_value`. -/
def convert_frame_bound_to_scalar_value (v : AstExpr)
    (units : AstWindowFrameUnits) : Except PlanError ScalarValue :=
  match units with
  | .rows | .groups =>
    match v with
    | .value (.number value false) => tryFromStringUInt64 value
    | .interval value none none none none =>
      match value with
      | .value (.singleQuotedString item) => tryFromStringUInt64 item
      | _ => .error .intervalExprInvalid
    | _ => .error .rowsGroupsOffsetNotNonNegativeInteger
  | .range =>
    match v with
    | .value (.number value false) => .ok (.utf8 (some value))
    | .interval value leading_field _ _ _ =>
      match value with
      | .value (.singleQuotedString item) =>
        match leading_field with
        | some lf => .ok (.utf8 (some (item ++ (" ") ++ lf)))
        | none => .ok (.utf8 (some item))
      | _ => .error .intervalExprInvalid
    | _ => .error .rangeOffsetInvalid

/-- `WindowFrameBound::try_parse`. -/
def WindowFrameBound.try_parse (value : AstWindowFrameBound)
    (units : AstWindowFrameUnits) : Except PlanError WindowFrameBound :=
  match value with
  | .preceding (some v) =>
    (convert_frame_bound_to_scalar_value v units).map WindowFrameBound.preceding
  | .preceding none => .ok (.preceding (.uint64 none))
  | .following (some v) =>
    (convert_frame_bound_to_scalar_value v units).map WindowFrameBound.following
  | .following none => .ok (.following (.uint64 none))
  | .currentRow => .ok .currentRow

/-- `TryFrom<ast::WindowFrame> for WindowFrame`. Note the `else if` in the
source: the end-bound validation runs only when the start bound is not a
`Following` bound. -/
def WindowFrame.tryFrom (value : AstWindowFrame) :
    Except PlanError WindowFrame :=
  match WindowFrameBound.try_parse value.start_bound value.units with
  | .error e => .error e
  | .ok start_bound =>
    match (match value.end_bound with
           | some bound => WindowFrameBound.try_parse bound value.units
           | none => .ok WindowFrameBound.currentRow) with
    | .error e => .error e
    | .ok end_bound =>
      match start_bound with
      | .following val =>
        if val.is_null then .error .startBoundUnboundedFollowing
        else .ok (WindowFrame.new_bounds value.units.toUnits start_bound end_bound)
      | _ =>
        match end_bound with
        | .preceding val =>
          if val.is_null then .error .endBoundUnboundedPreceding
          else .ok (WindowFrame.new_bounds value.units.toUnits start_bound end_bound)
        | _ => .ok (WindowFrame.new_bounds value.units.toUnits start_bound end_bound)

/-- C4 (counterexample): `ROWS BETWEEN 1 FOLLOWING AND UNBOUNDED
PRECEDING` — the start bound parses fine and the end bound is
unbounded-preceding, yet the conversion succeeds, because the `else if`
skips the end-bound check whenever the start bound is a `Following`
bound. -/
theorem window_frame_try_from_cex :
    WindowFrameBound.try_parse
      (AstWindowFrameBound.following (some (AstExpr.value
        (AstValue.number ("1") false)))) AstWindowFrameUnits.rows =
      Except.ok (WindowFrameBound.following (ScalarValue.uint64 (some 1))) ∧
    WindowFrame.tryFrom ⟨AstWindowFrameUnits.rows,
      AstWindowFrameBound.following (some (AstExpr.value
        (AstValue.number ("1") false))),
      some (AstWindowFrameBound.preceding none)⟩ =
    Except.ok ⟨WindowFrameUnits.rows,
      WindowFrameBound.following (ScalarValue.uint64 (some 1)),
      WindowFrameBound.preceding (ScalarValue.uint64 none), true⟩ := by
  constructor
  · decide
  · decide

/-- C4 (amended): if the end bound of a parsed window-frame specification
is unbounded-preceding, the conversion fails with a planning error
whenever the parsed start bound is not a `Following` bound; when the
start bound parses to an N-following bound the end-bound check is skipped
and construction succeeds. -/
theorem try_from_end_unbounded_preceding (f : AstWindowFrame)
    (sb : WindowFrameBound)
    (hend : f.end_bound = some (AstWindowFrameBound.preceding none))
    (hstart : WindowFrameBound.try_parse f.start_bound f.units =
      Except.ok sb)
    (hnf : ∀ v, sb ≠ WindowFrameBound.following v) :
    WindowFrame.tryFrom f = Except.error PlanError.endBoundUnboundedPreceding := by
  rw [WindowFrame.tryFrom, hstart, hend]
  match sb, hnf with
  | .currentRow, _ => rfl
  | .preceding v, _ => rfl
  | .following v, hnf => exact absurd rfl (hnf v)

theorem try_from_end_unbounded_preceding_witness :
    WindowFrame.tryFrom ⟨AstWindowFrameUnits.rows,
      AstWindowFrameBound.currentRow,
      some (AstWindowFrameBound.preceding none)⟩ =
    Except.error PlanError.endBoundUnboundedPreceding :=
  try_from_end_unbounded_preceding _ WindowFrameBound.currentRow rfl rfl
    (fun v h => WindowFrameBound.noConfusion h)

theorem bridgeInner_subclass (classes : List EquivalenceClass)
    (idx next : Nat) (hidx : idx < next) :
    ∀ p, p < classes.length → ∃ q, q < (bridgeInner classes idx next).length ∧
      ∀ e, e ∈ (classes.getD p EquivalenceClass.new_empty).exprs →
        e ∈ ((bridgeInner classes idx next).getD q
          EquivalenceClass.new_empty).exprs := by
  intro p hp
  by_cases h : next < classes.length
  · by_cases hc : (classes.getD idx EquivalenceClass.new_empty).contains_any
        (classes.getD next EquivalenceClass.new_empty)
    · rw [bridgeInner_merge classes idx next h hc]
      have hMlen : ((swapRemove classes next).set idx
          (((swapRemove classes next).getD idx EquivalenceClass.new_empty).extendC
            (classes.getD next EquivalenceClass.new_empty))).length =
          classes.length - 1 := by
        rw [List.length_set, swapRemove_length]
      have hat_idx : ((swapRemove classes next).set idx
          (((swapRemove classes next).getD idx EquivalenceClass.new_empty).extendC
            (classes.getD next EquivalenceClass.new_empty))).getD idx
            EquivalenceClass.new_empty =
          ((classes.getD idx EquivalenceClass.new_empty).extendC
            (classes.getD next EquivalenceClass.new_empty)) := by
        rw [getD_set_self _ _ _ _ (by rw [swapRemove_length]; omega),
          getD_swapRemove_ne _ _ _ _ (by omega) (by omega)]
      by_cases hpidx : p = idx
      · obtain ⟨q, hq, hsub⟩ := bridgeInner_subclass ((swapRemove classes next).set idx (((swapRemove classes next).getD idx EquivalenceClass.new_empty).extendC (classes.getD next EquivalenceClass.new_empty))) idx next hidx idx
          (by rw [List.length_set, swapRemove_length]; omega)
        refine ⟨q, hq, fun e he => hsub e ?_⟩
        rw [hat_idx, EquivalenceClass.mem_extendC]
        rw [hpidx] at he
        exact Or.inl he
      · by_cases hpnext : p = next
        · obtain ⟨q, hq, hsub⟩ := bridgeInner_subclass ((swapRemove classes next).set idx (((swapRemove classes next).getD idx EquivalenceClass.new_empty).extendC (classes.getD next EquivalenceClass.new_empty))) idx next hidx idx
            (by rw [List.length_set, swapRemove_length]; omega)
          refine ⟨q, hq, fun e he => hsub e ?_⟩
          rw [hat_idx, EquivalenceClass.mem_extendC]
          rw [hpnext] at he
          exact Or.inr he
        · by_cases hplast : p = classes.length - 1
          · have hnlt : next < classes.length - 1 := by omega
            obtain ⟨q, hq, hsub⟩ := bridgeInner_subclass ((swapRemove classes next).set idx (((swapRemove classes next).getD idx EquivalenceClass.new_empty).extendC (classes.getD next EquivalenceClass.new_empty))) idx next hidx next
              (by rw [List.length_set, swapRemove_length]; omega)
            refine ⟨q, hq, fun e he => hsub e ?_⟩
            rw [getD_set_ne _ _ _ _ _ (by omega),
              getD_swapRemove_self _ _ _ hnlt]
            rw [hplast] at he
            exact he
          · obtain ⟨q, hq, hsub⟩ := bridgeInner_subclass ((swapRemove classes next).set idx (((swapRemove classes next).getD idx EquivalenceClass.new_empty).extendC (classes.getD next EquivalenceClass.new_empty))) idx next hidx p
              (by rw [List.length_set, swapRemove_length]; omega)
            refine ⟨q, hq, fun e he => hsub e ?_⟩
            rw [getD_set_ne _ _ _ _ _ (fun hh => hpidx hh.symm),
              getD_swapRemove_ne _ _ _ _ hpnext (by omega)]
            exact he
    · rw [bridgeInner_skip classes idx next h hc]
      exact bridgeInner_subclass classes idx (next + 1) (by omega) p hp
  · rw [bridgeInner_exit classes idx next h]
    exact ⟨p, hp, fun e he => he⟩
termination_by classes.length - next
decreasing_by
  · simp only [List.length_set, swapRemove_length]
    omega
  · simp only [List.length_set, swapRemove_length]
    omega
  · simp only [List.length_set, swapRemove_length]
    omega
  · simp only [List.length_set, swapRemove_length]
    omega
  · omega

theorem bridgeOuter_subclass (classes : List EquivalenceClass) (idx : Nat) :
    ∀ p, p < classes.length → ∃ q, q < (bridgeOuter classes idx).length ∧
      ∀ e, e ∈ (classes.getD p EquivalenceClass.new_empty).exprs →
        e ∈ ((bridgeOuter classes idx).getD q
          EquivalenceClass.new_empty).exprs := by
  intro p hp
  by_cases h : idx < classes.length
  · obtain ⟨q1, hq1, hsub1⟩ := bridgeInner_subclass classes idx (idx + 1)
      (by omega) p hp
    by_cases hgrow : (classes.getD idx EquivalenceClass.new_empty).lenC <
        ((bridgeInner classes idx (idx + 1)).getD idx EquivalenceClass.new_empty).lenC
    · rw [bridgeOuter_grow classes idx h hgrow]
      obtain ⟨q, hq, hsub⟩ := bridgeOuter_subclass
        (bridgeInner classes idx (idx + 1)) idx q1 hq1
      exact ⟨q, hq, fun e he => hsub e (hsub1 e he)⟩
    · rw [bridgeOuter_advance classes idx h hgrow]
      obtain ⟨q, hq, hsub⟩ := bridgeOuter_subclass
        (bridgeInner classes idx (idx + 1)) (idx + 1) q1 hq1
      exact ⟨q, hq, fun e he => hsub e (hsub1 e he)⟩
  · rw [bridgeOuter_exit classes idx h]
    exact ⟨p, hp, fun e he => he⟩
termination_by 2 * classes.length - idx
decreasing_by
  · rcases bridgeInner_eq_or_length_lt classes idx (idx + 1) with heq | hlt
    · rw [heq] at hgrow
      exact absurd hgrow (lt_irrefl _)
    · omega
  · rcases bridgeInner_eq_or_length_lt classes idx (idx + 1) with heq | hlt
    · rw [heq]
      omega
    · omega

theorem new_subclass (classes : List EquivalenceClass) (c : EquivalenceClass)
    (hc : c ∈ classes) (hlen : 1 < c.lenC) :
    ∃ q, q < (EquivalenceGroup.new classes).classes.length ∧
      ∀ e, e ∈ c.exprs →
        e ∈ ((EquivalenceGroup.new classes).classes.getD q
          EquivalenceClass.new_empty).exprs := by
  simp only [EquivalenceGroup.new, EquivalenceGroup.remove_redundant_entries,
    EquivalenceGroup.bridge_classes, EquivalenceGroup.classes_mk]
  have hcf : c ∈ (EquivalenceGroup.mk classes).classes.filter
      (fun c => 1 < c.lenC) := by
    rw [List.mem_filter]
    exact ⟨hc, by simpa using hlen⟩
  rw [List.mem_iff_getElem] at hcf
  obtain ⟨p, hp, hpe⟩ := hcf
  obtain ⟨q, hq, hsub⟩ := bridgeOuter_subclass _ 0 p hp
  refine ⟨q, hq, fun e he => hsub e ?_⟩
  rw [List.getD_eq_getElem _ _ hp, hpe]
  exact he

/-- Modelled from the spec: the `ProjectionMapping` collaborator (external
to these sources): an ordered sequence of (source, target) expression
pairs, consumed read-only. -/
abbrev ProjectionMapping := List (Expr × Expr)

/-- Modelled from the spec: `ProjectionMapping::target_expr`, the
exact-match lookup by source: the target of the first pair whose source
structurally equals the queried expression. -/
def ProjectionMapping.target_expr (mapping : ProjectionMapping) (e : Expr) :
    Option Expr :=
  (mapping.find? (fun p => decide (p.1 = e))).map (fun p => p.2)

/-- Resolution tiers (1) and (2) of `project_expr`: the exact-match lookup
by source, then the first mapping pair whose source's equivalence class
contains the expression. -/
def projectExprHead (g : EquivalenceGroup) (mapping : ProjectionMapping)
    (expr : Expr) : Option Expr :=
  match mapping.target_expr expr with
  | some target => some target
  | none =>
    match mapping.find? (fun p =>
        optionClassContains (g.get_equivalence_class p.1) expr) with
    | some p => some p.2
    | none => none

/-- `EquivalenceGroup::project_expr`: head resolution, then (for non-leaf
expressions only) the recursive projection of all children and the
rebuild; a leaf missing from the mapping fails. -/
def EquivalenceGroup.project_expr (g : EquivalenceGroup)
    (mapping : ProjectionMapping) : Expr → Option Expr
  | .binary op l r =>
    match projectExprHead g mapping (.binary op l r) with
    | some t => some t
    | none =>
      match g.project_expr mapping l, g.project_expr mapping r with
      | some l2, some r2 => some (.binary op l2 r2)
      | _, _ => none
  | e =>
    match projectExprHead g mapping e with
    | some t => some t
    | none => none

/-- `IndexMap::entry(key).or_insert_with(new_empty).push(target)`: pushes
the target into the bucket of the key, appending a fresh bucket at the
end for an unseen key (insertion order preserved). -/
def insertGrouped (acc : List (Expr × EquivalenceClass)) (key target : Expr) :
    List (Expr × EquivalenceClass) :=
  match acc with
  | [] => [(key, EquivalenceClass.new_empty.push target)]
  | kv :: rest =>
    if kv.1 = key then (kv.1, kv.2.push target) :: rest
    else kv :: insertGrouped rest key target

/-- `EquivalenceGroup::project`. -/
def EquivalenceGroup.project (g : EquivalenceGroup)
    (mapping : ProjectionMapping) : EquivalenceGroup :=
  let projected_classes := g.classes.filterMap (fun cls =>
    let new_class := cls.exprs.filterMap (fun e => g.project_expr mapping e)
    if 1 < new_class.length then some (EquivalenceClass.new new_class)
    else none)
  let new_classes := (mapping.foldl (fun acc p =>
      insertGrouped acc (g.normalize_expr p.1) p.2) []).filterMap
    (fun kv => if 1 < kv.2.lenC then some kv.2 else none)
  EquivalenceGroup.new (projected_classes ++ new_classes)

/-- First-match bucket lookup in the grouped association list. -/
def lookupBucket (acc : List (Expr × EquivalenceClass)) (key : Expr) :
    Option EquivalenceClass :=
  (acc.find? (fun kv => decide (kv.1 = key))).map (fun kv => kv.2)

theorem lookupBucket_insert_self (acc : List (Expr × EquivalenceClass))
    (key target : Expr) :
    ∃ B, lookupBucket (insertGrouped acc key target) key = some B ∧
      target ∈ B.exprs ∧
      ∀ C, lookupBucket acc key = some C → ∀ e ∈ C.exprs, e ∈ B.exprs := by
  induction acc with
  | nil =>
    refine ⟨EquivalenceClass.new_empty.push target, ?_, ?_, ?_⟩
    · simp [insertGrouped, lookupBucket]
    · rw [EquivalenceClass.mem_push]
      exact Or.inr rfl
    · intro C hC
      simp [lookupBucket] at hC
  | cons kv rest ih =>
    by_cases hk : kv.1 = key
    · refine ⟨kv.2.push target, ?_, ?_, ?_⟩
      · simp [insertGrouped, lookupBucket, if_pos hk, hk]
      · rw [EquivalenceClass.mem_push]
        exact Or.inr rfl
      · intro C hC e he
        rw [lookupBucket, List.find?_cons_of_pos _ (by simpa using hk)] at hC
        simp only [Option.map_some'] at hC
        rw [EquivalenceClass.mem_push]
        left
        rw [Option.some_injective _ hC]
        exact he
    · obtain ⟨B, hB, hBt, hBsub⟩ := ih
      refine ⟨B, ?_, hBt, ?_⟩
      · rw [insertGrouped]
        simp only [if_neg hk]
        rw [lookupBucket, List.find?_cons_of_neg _ (by simpa using hk)]
        exact hB
      · intro C hC e he
        rw [lookupBucket, List.find?_cons_of_neg _ (by simpa using hk)] at hC
        exact hBsub C hC e he

theorem lookupBucket_insert_mono (acc : List (Expr × EquivalenceClass))
    (key target k : Expr) (C : EquivalenceClass) (e : Expr)
    (hC : lookupBucket acc k = some C) (he : e ∈ C.exprs) :
    ∃ D, lookupBucket (insertGrouped acc key target) k = some D ∧
      e ∈ D.exprs := by
  induction acc with
  | nil => simp [lookupBucket] at hC
  | cons kv rest ih =>
    by_cases hfirst : kv.1 = k
    · rw [lookupBucket, List.find?_cons_of_pos _ (by simpa using hfirst)] at hC
      simp only [Option.map_some'] at hC
      by_cases hk : kv.1 = key
      · refine ⟨kv.2.push target, ?_, ?_⟩
        · rw [insertGrouped]
          simp only [if_pos hk]
          rw [lookupBucket, List.find?_cons_of_pos _ (by simpa using hfirst)]
          rfl
        · rw [EquivalenceClass.mem_push]
          left
          rw [Option.some_injective _ hC]
          exact he
      · refine ⟨C, ?_, he⟩
        rw [insertGrouped]
        simp only [if_neg hk]
        rw [lookupBucket, List.find?_cons_of_pos _ (by simpa using hfirst)]
        simp only [Option.map_some']
        rw [← Option.some_injective _ hC]
    · rw [lookupBucket, List.find?_cons_of_neg _ (by simpa using hfirst)] at hC
      obtain ⟨D, hD, hDe⟩ := ih hC
      by_cases hk : kv.1 = key
      · refine ⟨C, ?_, he⟩
        rw [insertGrouped]
        simp only [if_pos hk]
        rw [lookupBucket, List.find?_cons_of_neg _ (by simpa using hfirst)]
        exact hC
      · refine ⟨D, ?_, hDe⟩
        rw [insertGrouped]
        simp only [if_neg hk]
        rw [lookupBucket, List.find?_cons_of_neg _ (by simpa using hfirst)]
        exact hD

theorem foldGrouped_mono (g : EquivalenceGroup) (m : List (Expr × Expr))
    (acc : List (Expr × EquivalenceClass)) (k e : Expr) (C : EquivalenceClass)
    (hC : lookupBucket acc k = some C) (he : e ∈ C.exprs) :
    ∃ D, lookupBucket (m.foldl (fun acc p =>
      insertGrouped acc (g.normalize_expr p.1) p.2) acc) k = some D ∧
      e ∈ D.exprs := by
  induction m generalizing acc C with
  | nil => exact ⟨C, hC, he⟩
  | cons p rest ih =>
    obtain ⟨D, hD, hDe⟩ := lookupBucket_insert_mono acc
      (g.normalize_expr p.1) p.2 k C e hC he
    simp only [List.foldl_cons]
    exact ih _ D hD hDe

theorem foldGrouped_mem (g : EquivalenceGroup) (m : List (Expr × Expr))
    (acc : List (Expr × EquivalenceClass)) (s t : Expr) (hmem : (s, t) ∈ m) :
    ∃ B, lookupBucket (m.foldl (fun acc p =>
      insertGrouped acc (g.normalize_expr p.1) p.2) acc)
      (g.normalize_expr s) = some B ∧ t ∈ B.exprs := by
  induction m generalizing acc with
  | nil => simp at hmem
  | cons p rest ih =>
    simp only [List.foldl_cons]
    rcases List.mem_cons.mp hmem with heq | htail
    · subst heq
      obtain ⟨B0, hB0, hB0t, _⟩ := lookupBucket_insert_self acc
        (g.normalize_expr (s, t).1) (s, t).2
      exact foldGrouped_mono g rest _ (g.normalize_expr s) t B0 hB0 hB0t
    · exact ih _ htail

theorem mem_of_lookupBucket (acc : List (Expr × EquivalenceClass))
    (k : Expr) (B : EquivalenceClass) (h : lookupBucket acc k = some B) :
    ∃ kv ∈ acc, kv.2 = B := by
  rw [lookupBucket, Option.map_eq_some'] at h
  obtain ⟨kv, hfind, hsnd⟩ := h
  exact ⟨kv, List.mem_of_find?_eq_some hfind, hsnd⟩

theorem two_mem_lenC {c : EquivalenceClass} {e f : Expr} (he : e ∈ c.exprs)
    (hf : f ∈ c.exprs) (hne : e ≠ f) : 1 < c.lenC := by
  rw [EquivalenceClass.lenC]
  match hc : c.exprs with
  | [] =>
    rw [hc] at he
    simp at he
  | [x] =>
    rw [hc] at he hf
    simp only [List.mem_singleton] at he hf
    exact absurd (he.trans hf.symm) hne
  | x :: y :: rest => simp

/-- Distinct targets of two mapping pairs with identical normalized
sources end up in one class of the projected group. -/
theorem projectTargetsComember (g : EquivalenceGroup) (m : ProjectionMapping)
    (s1 t1 s2 t2 : Expr) (h1 : (s1, t1) ∈ m) (h2 : (s2, t2) ∈ m)
    (hnorm : g.normalize_expr s1 = g.normalize_expr s2) (hne : t1 ≠ t2) :
    ∃ q, q < (g.project m).classes.length ∧
      t1 ∈ ((g.project m).classes.getD q EquivalenceClass.new_empty).exprs ∧
      t2 ∈ ((g.project m).classes.getD q EquivalenceClass.new_empty).exprs := by
  obtain ⟨B1, hB1, ht1⟩ := foldGrouped_mem g m [] s1 t1 h1
  obtain ⟨B2, hB2, ht2⟩ := foldGrouped_mem g m [] s2 t2 h2
  rw [hnorm] at hB1
  have hBB : B1 = B2 := Option.some_injective _ (hB1.symm.trans hB2)
  rw [← hBB] at ht2
  have hlen : 1 < B1.lenC := two_mem_lenC ht1 ht2 hne
  obtain ⟨kv, hkv_mem, hkv2⟩ := mem_of_lookupBucket _ _ _ hB1
  have hBin : B1 ∈ (m.foldl (fun acc p =>
      insertGrouped acc (g.normalize_expr p.1) p.2) []).filterMap
      (fun kv => if 1 < kv.2.lenC then some kv.2 else none) := by
    rw [List.mem_filterMap]
    refine ⟨kv, hkv_mem, ?_⟩
    rw [hkv2, if_pos hlen]
  simp only [EquivalenceGroup.project]
  obtain ⟨q, hq, hsub⟩ := new_subclass
    (g.classes.filterMap (fun cls =>
      if 1 < (cls.exprs.filterMap (fun e => g.project_expr m e)).length
      then some (EquivalenceClass.new
        (cls.exprs.filterMap (fun e => g.project_expr m e)))
      else none) ++
     (m.foldl (fun acc p =>
        insertGrouped acc (g.normalize_expr p.1) p.2) []).filterMap
      (fun kv => if 1 < kv.2.lenC then some kv.2 else none))
    B1 (List.mem_append_right _ hBin) hlen
  exact ⟨q, hq, hsub t1 ht1, hsub t2 ht2⟩

theorem EquivalenceGroup.exprs_equal_eq (g : EquivalenceGroup) (l r : Expr) :
    g.exprs_equal l r =
      (if l = r then true
      else if optionClassContains (g.get_equivalence_class l) r then true
      else if optionClassContains (g.get_equivalence_class r) l then true
      else
        match l, r with
        | .binary _ ll lr, .binary _ rl rr =>
          g.exprs_equal ll rl && g.exprs_equal lr rr
        | _, _ => false) := by
  cases l <;> cases r <;> rfl

theorem first_class_contains (cs : List EquivalenceClass)
    (hd : posDisjoint cs) (q : Nat) (hq : q < cs.length) (e f : Expr)
    (he : e ∈ (cs.getD q EquivalenceClass.new_empty).exprs)
    (hf : f ∈ (cs.getD q EquivalenceClass.new_empty).exprs) :
    optionClassContains (cs.find? (fun cls => decide (e ∈ cls.exprs))) f =
      true := by
  cases hfind : cs.find? (fun cls => decide (e ∈ cls.exprs)) with
  | none =>
    have := List.find?_eq_none.mp hfind (cs.getD q EquivalenceClass.new_empty)
      (getD_mem _ _ _ hq)
    simp only [decide_eq_true_eq] at this
    exact absurd he this
  | some cls =>
    have hclsmem : cls ∈ cs := List.mem_of_find?_eq_some hfind
    have hecls : e ∈ cls.exprs := by
      have := List.find?_some hfind
      simpa using this
    rw [List.mem_iff_getElem] at hclsmem
    obtain ⟨p, hp, hpe⟩ := hclsmem
    have hpq : p = q := by
      by_contra hne
      refine hd p q hp hq hne e ?_ he
      rw [List.getD_eq_getElem _ _ hp, hpe]
      exact hecls
    have hcls_eq : cls = cs.getD q EquivalenceClass.new_empty := by
      rw [← hpq, List.getD_eq_getElem _ _ hp, hpe]
    rw [optionClassContains, hcls_eq]
    simpa using hf

/-- C6: `project` groups the mapping's targets by the normalized source of
their pair: two mapping pairs whose sources normalize identically under
the input group yield targets that are equivalent in the projected group
(`exprs_equal` holds on them); when the targets are distinct expressions
they moreover share one class of the projected group. -/
theorem project_groups_targets (g : EquivalenceGroup) (m : ProjectionMapping)
    (s1 t1 s2 t2 : Expr) (h1 : (s1, t1) ∈ m) (h2 : (s2, t2) ∈ m)
    (hnorm : g.normalize_expr s1 = g.normalize_expr s2) :
    (g.project m).exprs_equal t1 t2 = true ∧
    (t1 ≠ t2 → ∃ q, q < (g.project m).classes.length ∧
      t1 ∈ ((g.project m).classes.getD q EquivalenceClass.new_empty).exprs ∧
      t2 ∈ ((g.project m).classes.getD q EquivalenceClass.new_empty).exprs) := by
  have hcm := projectTargetsComember g m s1 t1 s2 t2 h1 h2 hnorm
  refine ⟨?_, hcm⟩
  by_cases hne : t1 = t2
  · rw [EquivalenceGroup.exprs_equal_eq, if_pos hne]
  · obtain ⟨q, hq, ht1, ht2⟩ := hcm hne
    have hd : posDisjoint (g.project m).classes := by
      simp only [EquivalenceGroup.project]
      exact (new_invariant _).1
    have hb : optionClassContains
        ((g.project m).get_equivalence_class t1) t2 = true :=
      first_class_contains _ hd q hq t1 t2 ht1 ht2
    rw [EquivalenceGroup.exprs_equal_eq, if_neg hne, if_pos hb]

theorem project_groups_targets_witness :
    ((EquivalenceGroup.mk
        [⟨[Expr.column ("a") 0, Expr.column ("b") 1]⟩]).project
        [(Expr.binary Op.plus (Expr.column ("a") 0) (Expr.column ("c") 2),
          Expr.column ("a+c") 0),
         (Expr.binary Op.plus (Expr.column ("b") 1) (Expr.column ("c") 2),
          Expr.column ("b+c") 1)]).exprs_equal
      (Expr.column ("a+c") 0) (Expr.column ("b+c") 1) = true ∧
    (Expr.column ("a+c") 0 ≠ Expr.column ("b+c") 1 →
      ∃ q, q < ((EquivalenceGroup.mk
        [⟨[Expr.column ("a") 0, Expr.column ("b") 1]⟩]).project
        [(Expr.binary Op.plus (Expr.column ("a") 0) (Expr.column ("c") 2),
          Expr.column ("a+c") 0),
         (Expr.binary Op.plus (Expr.column ("b") 1) (Expr.column ("c") 2),
          Expr.column ("b+c") 1)]).classes.length ∧
      Expr.column ("a+c") 0 ∈ (((EquivalenceGroup.mk
        [⟨[Expr.column ("a") 0, Expr.column ("b") 1]⟩]).project
        [(Expr.binary Op.plus (Expr.column ("a") 0) (Expr.column ("c") 2),
          Expr.column ("a+c") 0),
         (Expr.binary Op.plus (Expr.column ("b") 1) (Expr.column ("c") 2),
          Expr.column ("b+c") 1)]).classes.getD q
          EquivalenceClass.new_empty).exprs ∧
      Expr.column ("b+c") 1 ∈ (((EquivalenceGroup.mk
        [⟨[Expr.column ("a") 0, Expr.column ("b") 1]⟩]).project
        [(Expr.binary Op.plus (Expr.column ("a") 0) (Expr.column ("c") 2),
          Expr.column ("a+c") 0),
         (Expr.binary Op.plus (Expr.column ("b") 1) (Expr.column ("c") 2),
          Expr.column ("b+c") 1)]).classes.getD q
          EquivalenceClass.new_empty).exprs) :=
  project_groups_targets
    (EquivalenceGroup.mk [⟨[Expr.column ("a") 0, Expr.column ("b") 1]⟩])
    [(Expr.binary Op.plus (Expr.column ("a") 0) (Expr.column ("c") 2),
      Expr.column ("a+c") 0),
     (Expr.binary Op.plus (Expr.column ("b") 1) (Expr.column ("c") 2),
      Expr.column ("b+c") 1)]
    (Expr.binary Op.plus (Expr.column ("a") 0) (Expr.column ("c") 2))
    (Expr.column ("a+c") 0)
    (Expr.binary Op.plus (Expr.column ("b") 1) (Expr.column ("c") 2))
    (Expr.column ("b+c") 1)
    (by decide) (by decide) (by decide)

/-- Modelled from the spec: `add_offset_to_expr` (defined in the
equivalence module outside these sources) rewrites every column reference
in a tree by adding `offset` to its index — the same rewrite the
Inner-join arm applies inline to the right-hand side of each "on"
condition. -/
def add_offset_to_expr (e : Expr) (offset : Nat) : Expr :=
  Expr.transformTopDown (fun e2 =>
    match e2 with
    | .column nm i => some (.column nm (i + offset))
    | _ => none) e

theorem add_offset_column (nm : String) (i n : Nat) :
    add_offset_to_expr (Expr.column nm i) n = Expr.column nm (i + n) := rfl

theorem add_offset_lit (v : Int) (n : Nat) :
    add_offset_to_expr (Expr.lit v) n = Expr.lit v := rfl

theorem add_offset_binary (op : Op) (l r : Expr) (n : Nat) :
    add_offset_to_expr (Expr.binary op l r) n =
      Expr.binary op (add_offset_to_expr l n) (add_offset_to_expr r n) := rfl

theorem add_offset_to_expr_inj (n : Nat) (e f : Expr)
    (h : add_offset_to_expr e n = add_offset_to_expr f n) : e = f := by
  induction e generalizing f with
  | column nm i =>
    cases f with
    | column nm2 i2 =>
      rw [add_offset_column, add_offset_column] at h
      simp only [Expr.column.injEq] at h ⊢
      exact ⟨h.1, by omega⟩
    | lit v => simp [add_offset_column, add_offset_lit] at h
    | binary op l r => simp [add_offset_column, add_offset_binary] at h
  | lit v =>
    cases f with
    | column nm2 i2 => simp [add_offset_column, add_offset_lit] at h
    | lit v2 => simpa [add_offset_lit] using h
    | binary op l r => simp [add_offset_lit, add_offset_binary] at h
  | binary op l r ihl ihr =>
    cases f with
    | column nm2 i2 => simp [add_offset_column, add_offset_binary] at h
    | lit v2 => simp [add_offset_lit, add_offset_binary] at h
    | binary op2 l2 r2 =>
      rw [add_offset_binary, add_offset_binary] at h
      simp only [Expr.binary.injEq] at h ⊢
      exact ⟨h.1, ihl _ h.2.1, ihr _ h.2.2⟩

/-- `EquivalenceClass::with_offset`. -/
def EquivalenceClass.with_offset (c : EquivalenceClass) (offset : Nat) :
    EquivalenceClass :=
  EquivalenceClass.new (c.exprs.map (fun e => add_offset_to_expr e offset))

/-- `JoinType` (from `datafusion_common`). -/
inductive JoinType
  | inner
  | left
  | full
  | right
  | leftSemi
  | leftAnti
  | leftMark
  | rightSemi
  | rightAnti
  deriving DecidableEq

/-- `EquivalenceGroup::join`. -/
def EquivalenceGroup.join (g : EquivalenceGroup)
    (right_equivalences : EquivalenceGroup) (join_type : JoinType)
    (left_size : Nat) (on_conditions : List (Expr × Expr)) : EquivalenceGroup :=
  match join_type with
  | .inner | .left | .full | .right =>
    let result := EquivalenceGroup.new
      (g.classes ++ right_equivalences.classes.map
        (fun cls => cls.with_offset left_size))
    if join_type = .inner then
      on_conditions.foldl (fun acc pr =>
        acc.add_equal_conditions pr.1 (add_offset_to_expr pr.2 left_size)) result
    else result
  | .leftSemi | .leftAnti | .leftMark => g
  | .rightSemi | .rightAnti => right_equivalences

theorem add_equal_conditions_subclass (g : EquivalenceGroup) (l r : Expr) :
    ∀ p, p < g.classes.length →
      ∃ q, q < (g.add_equal_conditions l r).classes.length ∧
      ∀ e, e ∈ (g.classes.getD p EquivalenceClass.new_empty).exprs →
        e ∈ ((g.add_equal_conditions l r).classes.getD q
          EquivalenceClass.new_empty).exprs := by
  intro p hp
  cases hfl : findClassIdx g.classes l with
  | none =>
    cases hfr : findClassIdx g.classes r with
    | none =>
      simp only [EquivalenceGroup.add_equal_conditions, hfl, hfr,
        EquivalenceGroup.classes_mk]
      refine ⟨p, by simp only [List.length_append]; omega, fun e he => ?_⟩
      rw [getD_append_lt _ _ _ _ hp]
      exact he
    | some j =>
      have hj := findClassIdx_sound _ _ _ hfr
      simp only [EquivalenceGroup.add_equal_conditions, hfl, hfr,
        EquivalenceGroup.classes_mk]
      by_cases hpj : p = j
      · refine ⟨j, by simp only [List.length_set]; exact hj.1, fun e he => ?_⟩
        rw [getD_set_self _ _ _ _ hj.1, EquivalenceClass.mem_push]
        rw [hpj] at he
        exact Or.inl he
      · refine ⟨p, by simp only [List.length_set]; omega, fun e he => ?_⟩
        rw [getD_set_ne _ _ _ _ _ (fun hh => hpj hh.symm)]
        exact he
  | some i =>
    cases hfr : findClassIdx g.classes r with
    | none =>
      have hi := findClassIdx_sound _ _ _ hfl
      simp only [EquivalenceGroup.add_equal_conditions, hfl, hfr,
        EquivalenceGroup.classes_mk]
      by_cases hpi : p = i
      · refine ⟨i, by simp only [List.length_set]; exact hi.1, fun e he => ?_⟩
        rw [getD_set_self _ _ _ _ hi.1, EquivalenceClass.mem_push]
        rw [hpi] at he
        exact Or.inl he
      · refine ⟨p, by simp only [List.length_set]; omega, fun e he => ?_⟩
        rw [getD_set_ne _ _ _ _ _ (fun hh => hpi hh.symm)]
        exact he
    | some j =>
      have hi := findClassIdx_sound _ _ _ hfl
      have hj := findClassIdx_sound _ _ _ hfr
      simp only [EquivalenceGroup.add_equal_conditions, hfl, hfr]
      by_cases hij : i = j
      · rw [if_pos hij]
        exact ⟨p, hp, fun e he => he⟩
      · rw [if_neg hij]
        simp only [EquivalenceGroup.classes_mk]
        have hfisi : min i j < max i j := by omega
        have hmaxlt : max i j < g.classes.length := by
          rcases hi with ⟨hi1, _⟩
          rcases hj with ⟨hj1, _⟩
          omega
        have hat_fi : ((swapRemove g.classes (max i j)).set (min i j)
            (((swapRemove g.classes (max i j)).getD (min i j)
              EquivalenceClass.new_empty).extendC
              (g.classes.getD (max i j) EquivalenceClass.new_empty))).getD (min i j)
              EquivalenceClass.new_empty =
            ((g.classes.getD (min i j) EquivalenceClass.new_empty).extendC
              (g.classes.getD (max i j) EquivalenceClass.new_empty)) := by
          rw [getD_set_self _ _ _ _ (by rw [swapRemove_length]; omega),
            getD_swapRemove_ne _ _ _ _ (by omega) (by omega)]
        have hreslen : ((swapRemove g.classes (max i j)).set (min i j)
            (((swapRemove g.classes (max i j)).getD (min i j)
              EquivalenceClass.new_empty).extendC
              (g.classes.getD (max i j) EquivalenceClass.new_empty))).length =
            g.classes.length - 1 := by
          rw [List.length_set, swapRemove_length]
        by_cases hpfi : p = min i j
        · refine ⟨min i j, by omega, fun e he => ?_⟩
          rw [hat_fi, EquivalenceClass.mem_extendC]
          rw [hpfi] at he
          exact Or.inl he
        · by_cases hpsi : p = max i j
          · refine ⟨min i j, by omega, fun e he => ?_⟩
            rw [hat_fi, EquivalenceClass.mem_extendC]
            rw [hpsi] at he
            exact Or.inr he
          · by_cases hplast : p = g.classes.length - 1
            · have hsilt : max i j < g.classes.length - 1 := by omega
              refine ⟨max i j, by omega, fun e he => ?_⟩
              rw [getD_set_ne _ _ _ _ _ (by omega),
                getD_swapRemove_self _ _ _ hsilt]
              rw [hplast] at he
              exact he
            · refine ⟨p, by omega, fun e he => ?_⟩
              rw [getD_set_ne _ _ _ _ _ (fun hh => hpfi hh.symm),
                getD_swapRemove_ne _ _ _ _ hpsi (by omega)]
              exact he

theorem foldl_addEq_subclass (ps : List (Expr × Expr)) (n : Nat)
    (g : EquivalenceGroup) :
    ∀ p, p < g.classes.length →
      ∃ q, q < (ps.foldl (fun acc pr =>
        acc.add_equal_conditions pr.1 (add_offset_to_expr pr.2 n)) g).classes.length ∧
      ∀ e, e ∈ (g.classes.getD p EquivalenceClass.new_empty).exprs →
        e ∈ ((ps.foldl (fun acc pr =>
          acc.add_equal_conditions pr.1 (add_offset_to_expr pr.2 n))
          g).classes.getD q EquivalenceClass.new_empty).exprs := by
  intro p hp
  induction ps generalizing g p with
  | nil => exact ⟨p, hp, fun e he => he⟩
  | cons pr rest ih =>
    simp only [List.foldl_cons]
    obtain ⟨q1, hq1, hsub1⟩ := add_equal_conditions_subclass g pr.1
      (add_offset_to_expr pr.2 n) p hp
    obtain ⟨q, hq, hsub⟩ := ih _ q1 hq1
    exact ⟨q, hq, fun e he => hsub e (hsub1 e he)⟩

theorem foldl_addEq_pair (ps : List (Expr × Expr)) (n : Nat)
    (g : EquivalenceGroup) (l r : Expr) (hmem : (l, r) ∈ ps) :
    ∃ q, q < (ps.foldl (fun acc pr =>
      acc.add_equal_conditions pr.1 (add_offset_to_expr pr.2 n)) g).classes.length ∧
      l ∈ ((ps.foldl (fun acc pr =>
        acc.add_equal_conditions pr.1 (add_offset_to_expr pr.2 n))
        g).classes.getD q EquivalenceClass.new_empty).exprs ∧
      add_offset_to_expr r n ∈ ((ps.foldl (fun acc pr =>
        acc.add_equal_conditions pr.1 (add_offset_to_expr pr.2 n))
        g).classes.getD q EquivalenceClass.new_empty).exprs := by
  induction ps generalizing g with
  | nil => simp at hmem
  | cons pr rest ih =>
    simp only [List.foldl_cons]
    rcases List.mem_cons.mp hmem with heq | htail
    · subst heq
      obtain ⟨p0, hp0, hl0, hr0⟩ := add_equal_conditions_same_class g l
        (add_offset_to_expr r n)
      obtain ⟨q, hq, hsub⟩ := foldl_addEq_subclass rest n _ p0 hp0
      exact ⟨q, hq, hsub l hl0, hsub _ hr0⟩
    · exact ih _ htail

theorem join_inner_eq (g h : EquivalenceGroup) (n : Nat)
    (onc : List (Expr × Expr)) :
    g.join h JoinType.inner n onc =
      onc.foldl (fun acc pr =>
        acc.add_equal_conditions pr.1 (add_offset_to_expr pr.2 n))
        (EquivalenceGroup.new (g.classes ++ h.classes.map
          (fun cls => cls.with_offset n))) := rfl

/-- C7: for an Inner join with left width `n`, the joined group preserves
the left group's equivalences unchanged, preserves the right group's
equivalences with every column index shifted by `n`, and records, via
`add_equal_conditions`, the equality of `lhs` with `rhs` shifted by `n`
for every "on" condition pair `(lhs, rhs)`. -/
theorem join_inner_composition (g h : EquivalenceGroup) (n : Nat)
    (onc : List (Expr × Expr)) :
    (∀ c ∈ g.classes, ∀ e f : Expr, e ∈ c.exprs → f ∈ c.exprs → e ≠ f →
      ∃ q, q < (g.join h JoinType.inner n onc).classes.length ∧
        e ∈ ((g.join h JoinType.inner n onc).classes.getD q
          EquivalenceClass.new_empty).exprs ∧
        f ∈ ((g.join h JoinType.inner n onc).classes.getD q
          EquivalenceClass.new_empty).exprs) ∧
    (∀ c ∈ h.classes, ∀ e f : Expr, e ∈ c.exprs → f ∈ c.exprs → e ≠ f →
      ∃ q, q < (g.join h JoinType.inner n onc).classes.length ∧
        add_offset_to_expr e n ∈ ((g.join h JoinType.inner n onc).classes.getD q
          EquivalenceClass.new_empty).exprs ∧
        add_offset_to_expr f n ∈ ((g.join h JoinType.inner n onc).classes.getD q
          EquivalenceClass.new_empty).exprs) ∧
    (∀ l r, (l, r) ∈ onc →
      ∃ q, q < (g.join h JoinType.inner n onc).classes.length ∧
        l ∈ ((g.join h JoinType.inner n onc).classes.getD q
          EquivalenceClass.new_empty).exprs ∧
        add_offset_to_expr r n ∈ ((g.join h JoinType.inner n onc).classes.getD q
          EquivalenceClass.new_empty).exprs) := by
  rw [join_inner_eq]
  refine ⟨?_, ?_, ?_⟩
  · intro c hc e f he hf hne
    have hlen : 1 < c.lenC := two_mem_lenC he hf hne
    obtain ⟨q0, hq0, hsub0⟩ := new_subclass
      (g.classes ++ h.classes.map (fun cls => cls.with_offset n)) c
      (List.mem_append_left _ hc) hlen
    obtain ⟨q, hq, hsub⟩ := foldl_addEq_subclass onc n _ q0 hq0
    exact ⟨q, hq, hsub e (hsub0 e he), hsub f (hsub0 f hf)⟩
  · intro c hc e f he hf hne
    have hce : add_offset_to_expr e n ∈ (c.with_offset n).exprs := by
      rw [EquivalenceClass.with_offset, EquivalenceClass.mem_new]
      exact List.mem_map.mpr ⟨e, he, rfl⟩
    have hcf : add_offset_to_expr f n ∈ (c.with_offset n).exprs := by
      rw [EquivalenceClass.with_offset, EquivalenceClass.mem_new]
      exact List.mem_map.mpr ⟨f, hf, rfl⟩
    have hne2 : add_offset_to_expr e n ≠ add_offset_to_expr f n :=
      fun hh => hne (add_offset_to_expr_inj n e f hh)
    have hlen : 1 < (c.with_offset n).lenC := two_mem_lenC hce hcf hne2
    obtain ⟨q0, hq0, hsub0⟩ := new_subclass
      (g.classes ++ h.classes.map (fun cls => cls.with_offset n))
      (c.with_offset n)
      (List.mem_append_right _ (List.mem_map.mpr ⟨c, hc, rfl⟩)) hlen
    obtain ⟨q, hq, hsub⟩ := foldl_addEq_subclass onc n _ q0 hq0
    exact ⟨q, hq, hsub _ (hsub0 _ hce), hsub _ (hsub0 _ hcf)⟩
  · intro l r hmem
    exact foldl_addEq_pair onc n _ l r hmem

theorem join_inner_composition_witness :
    (∃ q, q < ((EquivalenceGroup.mk
        [⟨[Expr.column ("x") 0, Expr.column ("w") 1]⟩]).join
        (EquivalenceGroup.mk [⟨[Expr.column ("y") 0, Expr.column ("z") 1]⟩])
        JoinType.inner 3
        [(Expr.column ("x") 0, Expr.column ("y") 0)]).classes.length ∧
      Expr.column ("x") 0 ∈ (((EquivalenceGroup.mk
        [⟨[Expr.column ("x") 0, Expr.column ("w") 1]⟩]).join
        (EquivalenceGroup.mk [⟨[Expr.column ("y") 0, Expr.column ("z") 1]⟩])
        JoinType.inner 3
        [(Expr.column ("x") 0, Expr.column ("y") 0)]).classes.getD q
        EquivalenceClass.new_empty).exprs ∧
      Expr.column ("w") 1 ∈ (((EquivalenceGroup.mk
        [⟨[Expr.column ("x") 0, Expr.column ("w") 1]⟩]).join
        (EquivalenceGroup.mk [⟨[Expr.column ("y") 0, Expr.column ("z") 1]⟩])
        JoinType.inner 3
        [(Expr.column ("x") 0, Expr.column ("y") 0)]).classes.getD q
        EquivalenceClass.new_empty).exprs) ∧
    (∃ q, q < ((EquivalenceGroup.mk
        [⟨[Expr.column ("x") 0, Expr.column ("w") 1]⟩]).join
        (EquivalenceGroup.mk [⟨[Expr.column ("y") 0, Expr.column ("z") 1]⟩])
        JoinType.inner 3
        [(Expr.column ("x") 0, Expr.column ("y") 0)]).classes.length ∧
      add_offset_to_expr (Expr.column ("y") 0) 3 ∈ (((EquivalenceGroup.mk
        [⟨[Expr.column ("x") 0, Expr.column ("w") 1]⟩]).join
        (EquivalenceGroup.mk [⟨[Expr.column ("y") 0, Expr.column ("z") 1]⟩])
        JoinType.inner 3
        [(Expr.column ("x") 0, Expr.column ("y") 0)]).classes.getD q
        EquivalenceClass.new_empty).exprs ∧
      add_offset_to_expr (Expr.column ("z") 1) 3 ∈ (((EquivalenceGroup.mk
        [⟨[Expr.column ("x") 0, Expr.column ("w") 1]⟩]).join
        (EquivalenceGroup.mk [⟨[Expr.column ("y") 0, Expr.column ("z") 1]⟩])
        JoinType.inner 3
        [(Expr.column ("x") 0, Expr.column ("y") 0)]).classes.getD q
        EquivalenceClass.new_empty).exprs) ∧
    (∃ q, q < ((EquivalenceGroup.mk
        [⟨[Expr.column ("x") 0, Expr.column ("w") 1]⟩]).join
        (EquivalenceGroup.mk [⟨[Expr.column ("y") 0, Expr.column ("z") 1]⟩])
        JoinType.inner 3
        [(Expr.column ("x") 0, Expr.column ("y") 0)]).classes.length ∧
      Expr.column ("x") 0 ∈ (((EquivalenceGroup.mk
        [⟨[Expr.column ("x") 0, Expr.column ("w") 1]⟩]).join
        (EquivalenceGroup.mk [⟨[Expr.column ("y") 0, Expr.column ("z") 1]⟩])
        JoinType.inner 3
        [(Expr.column ("x") 0, Expr.column ("y") 0)]).classes.getD q
        EquivalenceClass.new_empty).exprs ∧
      add_offset_to_expr (Expr.column ("y") 0) 3 ∈ (((EquivalenceGroup.mk
        [⟨[Expr.column ("x") 0, Expr.column ("w") 1]⟩]).join
        (EquivalenceGroup.mk [⟨[Expr.column ("y") 0, Expr.column ("z") 1]⟩])
        JoinType.inner 3
        [(Expr.column ("x") 0, Expr.column ("y") 0)]).classes.getD q
        EquivalenceClass.new_empty).exprs) :=
  ⟨(join_inner_composition _ _ 3 _).1 ⟨[Expr.column ("x") 0,
      Expr.column ("w") 1]⟩ (by decide) _ _ (by decide) (by decide) (by decide),
    (join_inner_composition _ _ 3 _).2.1 ⟨[Expr.column ("y") 0,
      Expr.column ("z") 1]⟩ (by decide) _ _ (by decide) (by decide) (by decide),
    (join_inner_composition _ _ 3 _).2.2 (Expr.column ("x") 0)
      (Expr.column ("y") 0) (by decide)⟩
